import Mathlib

/-!
# Verification of the dephell setup.py converter and package manager

A shallow embedding of `src/dephell/converters/setuppy.py` and
`src/dephell/package_manager.py`, together with theorems settling the
claims about them.

Python strings are embedded as `List Char` (`Str`), so that the string
operations the source uses (`strip`, `join`, `split`, `replace`, `in`)
become executable list functions that are easy to reason about.
External collaborators that are not part of the two source files
(the metadata model constructors, the requirement-specifier parser,
the base converter's extras-key splitter, the distribution-info object)
are modelled from the specification's interface contracts; each such
definition carries a doc comment starting with `Modelled from the spec:`.
-/

/-- A Python string, embedded as its list of characters. -/
abbrev Str := List Char

/-- Characters of a Lean string literal, as a `Str`. -/
def chars (s : String) : Str := s.data

/-- Python `str.strip` whitespace class (the ASCII whitespace characters
stripped by `strip()` with no arguments). -/
def pyIsSpace (c : Char) : Bool :=
  c = ' ' || c = '\t' || c = '\n' || c = '\x0d' || c = '\x0b' || c = '\x0c'

/-- Python `str.lstrip()`. -/
def pyLstrip (s : Str) : Str := s.dropWhile pyIsSpace

/-- Python `str.rstrip()`: drop trailing whitespace. -/
def pyRstrip : Str → Str
  | [] => []
  | x :: xs =>
    let r := pyRstrip xs
    if r = [] && pyIsSpace x then [] else x :: r

/-- Python `str.strip()`: drop leading and trailing whitespace. -/
def pyStrip (s : Str) : Str := pyRstrip (pyLstrip s)

/-- Python truthiness of a string: non-empty. -/
def pyTruthy (s : Str) : Bool := !s.isEmpty

/-- Split a list at the first occurrence of character `c`: returns the part
before it and, when `c` occurs, the part after it. -/
def splitFirst (c : Char) : Str → Str × Option Str
  | [] => ([], none)
  | x :: xs =>
    if x = c then ([], some xs)
    else
      let r := splitFirst c xs
      (x :: r.1, r.2)

/-- Python `str.split(c)`: split on every occurrence of `c`
(empty pieces preserved; the empty string yields one empty piece). -/
def splitOnChar (c : Char) : Str → List Str
  | [] => [[]]
  | x :: xs =>
    let r := splitOnChar c xs
    if x = c then [] :: r
    else
      match r with
      | [] => [[x]]
      | p :: ps => (x :: p) :: ps

/-- `pat` occurs as a contiguous substring. -/
def occursSub (pat : Str) : Str → Bool
  | [] => pat.isEmpty
  | x :: xs => pat.isPrefixOf (x :: xs) || occursSub pat xs

/-- Recursion core of `replaceSub`, structural on a fuel bounded below by
the list length (replacing consumes at least one character per step). -/
def replaceSubAux (pat repl : Str) : Nat → Str → Str
  | _, [] => []
  | 0, s => s
  | fuel + 1, x :: xs =>
    if pat ≠ [] && pat.isPrefixOf (x :: xs) then
      repl ++ replaceSubAux pat repl fuel (xs.drop (pat.length - 1))
    else
      x :: replaceSubAux pat repl fuel xs

/-- Python `str.replace(pat, repl)` for a non-empty pattern: replace every
leftmost non-overlapping occurrence (an empty pattern leaves the string
unchanged; the converter only uses the non-empty pattern `"setup("`). -/
def replaceSub (pat repl s : Str) : Str := replaceSubAux pat repl s.length s

/-! ## The requirement record and `_format_req` -/

/-- The view of a requirement consumed by `SetupPyConverter.dumps` and
`_format_req`: dephell's `Requirement` wrapper exposing a name, an extras
set (embedded as an ordered list), a version-constraint string, a marker
string, and the set of named-environment memberships `main_envs`.
An empty string/list stands for Python's falsy absent value. -/
structure Req where
  name : Str
  extras : List Str
  version : Str
  markers : Str
  main_envs : List Str
deriving DecidableEq, Repr

namespace SetupPyConverter

/-- `SetupPyConverter._format_req` (setuppy.py lines 271-280): render a
requirement as name, optional `[extras]` (comma-joined), version string
appended directly, then `; marker` when a marker is present. -/
def _format_req (req : Req) : Str :=
  let line := req.name
  let line := if req.extras ≠ [] then
    line ++ [ '['] ++ (List.intercalate (chars ",") req.extras) ++ [ ']'] else line
  let line := if req.version ≠ [] then line ++ req.version else line
  let line := if req.markers ≠ [] then line ++ chars "; " ++ req.markers else line
  line

end SetupPyConverter

/-- The bracketed comma-joined extras piece, over a raw extras list. -/
def reqExtrasPieceL (e : List Str) : Str :=
  if e ≠ [] then [ '['] ++ (List.intercalate (chars ",") e) ++ [ ']'] else []

/-- The four rendered pieces of `_format_req`, for stating its shape. -/
def reqExtrasPiece (req : Req) : Str := reqExtrasPieceL req.extras

/-- The marker piece of `_format_req`. -/
def reqMarkerPiece (req : Req) : Str :=
  if req.markers ≠ [] then chars "; " ++ req.markers else []

/-- The fixed piece order of `_format_req`. -/
theorem format_req_eq (req : Req) :
    SetupPyConverter._format_req req
      = req.name ++ reqExtrasPiece req ++ req.version ++ reqMarkerPiece req := by
  simp only [SetupPyConverter._format_req, reqExtrasPiece, reqExtrasPieceL,
    reqMarkerPiece]
  by_cases he : req.extras = [] <;> by_cases hv : req.version = [] <;>
    by_cases hm : req.markers = [] <;> simp [he, hv, hm]

/-- C4: `_format_req` renders name, then bracketed comma-joined extras only
when extras are present, then the version string with no separator, then
`"; "` and the marker when present, in that fixed order; and on the concrete
input from the spec it yields exactly
`requests[socks]>=2.0; python_version>='3.6'`. -/
theorem c4_format_req_shape :
    (∀ req : Req, SetupPyConverter._format_req req
      = req.name ++ reqExtrasPiece req ++ req.version ++ reqMarkerPiece req)
    ∧ SetupPyConverter._format_req
        ⟨chars "requests", [chars "socks"], chars ">=2.0",
         chars "python_version>='3.6'", []⟩
      = chars "requests[socks]>=2.0; python_version>='3.6'" := by
  exact ⟨fun req => format_req_eq req, by decide⟩

/-! ## Metadata model (collaborator value types, modelled from the spec) -/

/-- Modelled from the spec: `Author` — a name plus optional contact
address (the loader stores `''` for a missing address). -/
structure Author where
  name : Str
  mail : Str
deriving DecidableEq, Repr

/-- Modelled from the spec: `EntryPoint` — the core treats it as an opaque
pair of a group name and the rendered entry-point text
(`EntryPoint.parse(text, group)` on load, `str(entrypoint)` on dump). -/
structure EntryPoint where
  group : Str
  text : Str
deriving DecidableEq, Repr

/-- Modelled from the spec: `EntryPoint.parse(text, group)`. -/
def EntryPoint.parse (text : Str) (group : Str) : EntryPoint := ⟨group, text⟩

/-- Modelled from the spec: `str(entrypoint)` — the rendered text. -/
def EntryPoint.render (ep : EntryPoint) : Str := ep.text

/-- Modelled from the spec: a parsed requirement specifier's components
(name, extras, version-constraint expression, marker expression;
`[]` stands for an absent component). -/
structure Requirement where
  name : Str
  extras : List Str
  version : Str
  markers : Str
deriving DecidableEq, Repr

/-- Modelled from the spec: `Dependency` — a single requirement plus its
`envs` set of logical installation contexts (embedded as a duplicate-free
list). -/
structure Dependency where
  name : Str
  extras : List Str
  version : Str
  markers : Str
  envs : List Str
deriving DecidableEq, Repr

/-- Modelled from the spec: one data-inclusion rule of the package
(an owning module and a relative path), consumed by `dumps`. -/
structure DataRule where
  module : Str
  relative : Str
deriving DecidableEq, Repr

/-- Modelled from the spec: the package layout carried by a
`RootDependency` (package paths and data rules), consumed by `dumps`. -/
structure PackageInfo where
  packages : List Str
  data : List DataRule
deriving DecidableEq, Repr

/-- Modelled from the spec: `RootDependency` — identity and publishing
metadata of a project, plus its owned dependency collection. -/
structure RootDependency where
  raw_name : Str
  version : Str
  description : Str
  license : Str
  keywords : List Str
  classifiers : List Str
  platforms : List Str
  python : Str
  readme : Option Str
  links : List (Str × Str)
  authors : List Author
  entrypoints : List EntryPoint
  dependencies : List Dependency
  package : PackageInfo
deriving DecidableEq, Repr

/-! ## The distribution-info object -/

/-- A Python value the converter iterates over to obtain strings: either a
string (iterating a Python string yields its characters as one-character
strings) or a list/tuple of strings. -/
inductive PyStrs where
  | str (s : Str)
  | list (xs : List Str)
deriving DecidableEq, Repr

/-- Python iteration over such a value. -/
def PyStrs.iterate : PyStrs → List Str
  | .str s => s.map (fun c => [c])
  | .list xs => xs

/-- Python truthiness of such a value. -/
def PyStrs.truthy : PyStrs → Bool
  | .str s => !s.isEmpty
  | .list xs => !xs.isEmpty

/-- Modelled from the spec: the keyword arguments of the single setup
invocation of a well-formed build script, restricted to the recognized
field names of §4.1 (`none` = keyword absent). -/
structure Kwargs where
  name : Option Str := none
  version : Option Str := none
  description : Option Str := none
  license : Option Str := none
  python_requires : Option Str := none
  url : Option Str := none
  download_url : Option Str := none
  author : Option Str := none
  author_email : Option Str := none
  maintainer : Option Str := none
  maintainer_email : Option Str := none
  keywords : Option PyStrs := none
  classifiers : Option PyStrs := none
  platforms : Option PyStrs := none
  install_requires : Option PyStrs := none
  entry_points : Option (List (Str × List Str)) := none
  extras_require : Option (List (Str × List Str)) := none
deriving DecidableEq, Repr

/-- Modelled from the spec: the distribution-info object of §6, "exposing
`.metadata` and top-level attributes matching the names in §4.1" —
scalar attributes live on the `.metadata` sub-object and on the object
itself, iterable-valued attributes on the object, plus the entry-point
and extras mappings. -/
structure Distribution where
  metadata : String → Option Str
  attrs : String → Option Str
  listAttrs : String → Option PyStrs
  entry_points : Option (List (Str × List Str))
  extras_require : Option (List (Str × List Str))

/-- Modelled from the spec: the distribution object built from captured
setup keyword arguments (safe path: `Distribution(dist)`; fallback path:
the object `run_setup` returns): every keyword is exposed as the
corresponding attribute. -/
def Distribution.ofKwargs (kw : Kwargs) : Distribution where
  metadata := fun _ => none
  attrs := fun n =>
    if n = "name" then kw.name
    else if n = "version" then kw.version
    else if n = "description" then kw.description
    else if n = "license" then kw.license
    else if n = "python_requires" then kw.python_requires
    else if n = "url" then kw.url
    else if n = "download_url" then kw.download_url
    else if n = "author" then kw.author
    else if n = "author_email" then kw.author_email
    else if n = "maintainer" then kw.maintainer
    else if n = "maintainer_email" then kw.maintainer_email
    else none
  listAttrs := fun n =>
    if n = "keywords" then kw.keywords
    else if n = "classifiers" then kw.classifiers
    else if n = "platforms" then kw.platforms
    else if n = "install_requires" then kw.install_requires
    else none
  entry_points := kw.entry_points
  extras_require := kw.extras_require

namespace SetupPyConverter

/-- `SetupPyConverter._get` (setuppy.py lines 253-262): check the metadata
sub-object first, then the top-level object; treat falsy values and the
sentinel `UNKNOWN` as absent; strip the result. -/
def _get (msg : Distribution) (name : String) : Str :=
  let value := match msg.metadata name with
    | some v => if pyTruthy v then some v else msg.attrs name
    | none => msg.attrs name
  match value with
  | none => []
  | some v =>
    if !pyTruthy v then []
    else if v = chars "UNKNOWN" then []
    else pyStrip v

/-- `SetupPyConverter._get_list` (setuppy.py lines 264-269): iterate the
attribute's value and keep the entries that are neither `UNKNOWN` nor
blank (unstripped). -/
def _get_list (msg : Distribution) (name : String) : List Str :=
  match msg.listAttrs name with
  | none => []
  | some v =>
    if !v.truthy then []
    else v.iterate.filter (fun x => x ≠ chars "UNKNOWN" && pyTruthy (pyStrip x))

end SetupPyConverter

/-! ## The requirement-specifier parser and the extras-key splitter -/

/-- A character allowed in a requirement name (letters, digits, `.`,
`_`, `-`). -/
def identChar (c : Char) : Bool :=
  c.isAlphanum || c = '.' || c = '_' || c = '-'

/-- The marker component of `parseReq`: the left-stripped text after the
separator, or nothing. -/
def parseMarkers (o : Option Str) : Str :=
  match o with
  | some m => pyLstrip m
  | none => []

/-- The name/extras/version part of `parseReq`, applied to the portion
before the marker separator. -/
def parseHead (head markers : Str) : Option Requirement :=
  if head.takeWhile identChar = [] then none
  else
    match head.dropWhile identChar with
    | '[' :: r2 =>
      match r2.dropWhile (fun c => c ≠ ']') with
      | ']' :: version =>
        some ⟨head.takeWhile identChar,
          splitOnChar ',' (r2.takeWhile (fun c => c ≠ ']')), version, markers⟩
      | _ => none
    | _ => some ⟨head.takeWhile identChar, [], head.dropWhile identChar, markers⟩

/-- Modelled from the spec: the requirement-specifier parser collaborator
(§6, `packaging.requirements.Requirement`) — parse a dependency line into
name, extras, version-constraint and marker components; the parse fails
(in Python: raises) when no name can be read or an extras bracket is
unterminated. -/
def parseReq (s : Str) : Option Requirement :=
  parseHead (splitFirst ';' s).1 (parseMarkers (splitFirst ';' s).2)

/-- Modelled from the spec: `BaseConverter._split_extra_and_marker`
(defined in the base-converter module, which is not under `src/`) —
split an extras-require key into the base extra name and the optional
conditional-marker suffix after the conventional `:` delimiter. -/
def _split_extra_and_marker (s : Str) : Str × Option Str := splitFirst ':' s

/-- The `envs` set computed at setuppy.py line 131
(`{extra} if extra == 'dev' else {'main', extra}`), embedded as a
duplicate-free list — being a set, `main` is not doubled when the extra
is itself named `main`. -/
def extraEnvs (extra : Str) : List Str :=
  if extra = chars "dev" then [extra]
  else if extra = chars "main" then [extra]
  else [chars "main", extra]

/-- Modelled from the spec: `DependencyMaker.from_requirement` (§6) —
construct the dependency objects for one parsed requirement, carrying its
components; an explicit marker context replaces the specifier's own
marker, and a freshly made dependency is unconditional (`envs` is
`{'main'}`). -/
def DependencyMaker.from_requirement (req : Requirement) (marker : Option Str) :
    List Dependency :=
  [{ name := req.name, extras := req.extras, version := req.version,
     markers := match marker with | some m => m | none => req.markers,
     envs := [chars "main"] }]

/-! ## Errors, logging, and the load pipeline -/

/-- A Python exception raised by the toolchain, modelled opaquely by its
rendered message. -/
structure PyErr where
  msg : Str
deriving DecidableEq, Repr

/-- The ways a `load` call can fail in the embedding: an exception from
the fallback `run_setup` execution propagating unmodified, or an invalid
requirement line rejected by the requirement-specifier parser
(setuppy.py lines 124 and 133, outside any handler). -/
inductive LoadErr where
  | fallback (e : PyErr)
  | invalidRequirement (line : Str)
deriving DecidableEq, Repr

/-- A log level of the `logging` collaborator. -/
inductive LogLevel where
  | error
  | debug
deriving DecidableEq, Repr

/-- One emitted log record. -/
structure LogEvent where
  level : LogLevel
  msg : Str
deriving DecidableEq, Repr

/-- setuppy.py lines 122-126: parse each `install_requires` entry and
collect the dependencies it yields (the first invalid entry raises). -/
def loadInstallDeps : List Str → Except LoadErr (List Dependency)
  | [] => .ok []
  | r :: rest =>
    match parseReq r with
    | none => .error (.invalidRequirement r)
    | some req =>
      match loadInstallDeps rest with
      | .error e => .error e
      | .ok ds => .ok (DependencyMaker.from_requirement req none ++ ds)

/-- setuppy.py lines 132-137 for one extras entry: parse each requirement
with the key's marker context and overwrite each resulting dependency's
`envs`. -/
def depsForExtraReqs (marker : Option Str) (envs : List Str) :
    List Str → Except LoadErr (List Dependency)
  | [] => .ok []
  | r :: rest =>
    match parseReq r with
    | none => .error (.invalidRequirement r)
    | some req =>
      match depsForExtraReqs marker envs rest with
      | .error e => .error e
      | .ok ds =>
        .ok ((DependencyMaker.from_requirement req marker).map
          (fun d => { d with envs := envs }) ++ ds)

/-- setuppy.py lines 129-137 for one extras entry: split the key, compute
the `envs` set, and build the entry's dependencies. -/
def depsForExtra (key : Str) (reqs : List Str) : Except LoadErr (List Dependency) :=
  depsForExtraReqs (_split_extra_and_marker key).2
    (extraEnvs (_split_extra_and_marker key).1) reqs

/-- setuppy.py lines 128-137: all extras entries in order. -/
def loadExtras : List (Str × List Str) → Except LoadErr (List Dependency)
  | [] => .ok []
  | (k, rs) :: rest =>
    match depsForExtra k rs with
    | .error e => .error e
    | .ok ds =>
      match loadExtras rest with
      | .error e => .error e
      | .ok ds' => .ok (ds ++ ds')

/-- setuppy.py lines 100-104: the link map derived from the two known
field names under fixed logical keys. -/
def loadLinks (info : Distribution) : List (Str × Str) :=
  (let l := SetupPyConverter._get info "url"
   if l ≠ [] then [(chars "home", l)] else [])
  ++ (let l := SetupPyConverter._get info "download_url"
      if l ≠ [] then [(chars "download", l)] else [])

/-- setuppy.py lines 106-112: up to two authors from the two known
field-name pairs, the mail attached whenever `_get` yields one. -/
def loadAuthors (info : Distribution) : List Author :=
  (let a := SetupPyConverter._get info "author"
   if a ≠ [] then [Author.mk a (SetupPyConverter._get info "author_email")] else [])
  ++ (let a := SetupPyConverter._get info "maintainer"
      if a ≠ [] then [Author.mk a (SetupPyConverter._get info "maintainer_email")] else [])

/-- setuppy.py lines 114-119: entry points parsed from the
group-to-list-of-strings mapping. -/
def loadEntrypoints (info : Distribution) : List EntryPoint :=
  (info.entry_points.getD []).flatMap
    (fun g => g.2.map (fun t => EntryPoint.parse t g.1))

/-- The `RootDependency` record lines 85-119 build, given the already
parsed dependency list. -/
def loadedRoot (info : Distribution) (readme : Option Str)
    (deps : List Dependency) : RootDependency :=
  { raw_name := SetupPyConverter._get info "name",
    version := if SetupPyConverter._get info "version" = [] then chars "0.0.0"
               else SetupPyConverter._get info "version",
    description := SetupPyConverter._get info "description",
    license := SetupPyConverter._get info "license",
    keywords := SetupPyConverter._get_list info "keywords",
    classifiers := SetupPyConverter._get_list info "classifiers",
    platforms := SetupPyConverter._get_list info "platforms",
    python := SetupPyConverter._get info "python_requires",
    readme := readme,
    links := loadLinks info,
    authors := loadAuthors info,
    entrypoints := loadEntrypoints info,
    dependencies := deps,
    package := ⟨[], []⟩ }

/-- setuppy.py lines 85-139: assemble the `RootDependency` from a
distribution-info object (shared by the safe path and the fallback path). -/
def assembleRoot (info : Distribution) (readme : Option Str) :
    Except LoadErr RootDependency :=
  match loadInstallDeps (SetupPyConverter._get_list info "install_requires") with
  | .error e => .error e
  | .ok instDeps =>
    match loadExtras (info.extras_require.getD []) with
    | .error e => .error e
    | .ok exDeps => .ok (loadedRoot info readme (instDeps ++ exDeps))

/-- Modelled from the spec: the dynamic behaviour of one build script —
its raw source text, the effect of executing the rewritten source in the
isolated namespace (an optionally raised exception and the final value of
the `_dist` capture variable), the result the fallback `run_setup`
execution would produce, and the readme `Readme.from_code` finds next to
the script. -/
structure Script where
  source : Str
  execRaised : Option PyErr
  execDist : Option Kwargs
  runSetupResult : Except PyErr Kwargs
  readme : Option Str

/-- `SetupPyConverter._execute` (setuppy.py lines 228-251): rewrite the
setup call into a `_dist = dict(` capture; report "no metadata" when the
rewrite was a no-op, when execution raised (caught and logged), or when
`_dist` was not populated. Returns the distribution (or `none`) plus the
log records it emits — the function itself never fails. -/
def SetupPyConverter._execute (s : Script) : Option Distribution × List LogEvent :=
  let new_source := replaceSub (chars "setup(") (chars "_dist = dict(") s.source
  if new_source = s.source then
    (none, [⟨.error, chars "cannot modify source"⟩])
  else
    let logs := match s.execRaised with
      | some e => [⟨.error, e.msg⟩]
      | none => []
    match s.execDist with
    | none => (none, logs ++ [⟨.error, chars "distribution was not called"⟩])
    | some kw => (some (Distribution.ofKwargs kw), logs)

/-- The fallback branch of `load` (setuppy.py lines 81-83): run the
original script via `run_setup` and assemble from its result; an
exception propagates unmodified. -/
def loadFallback (s : Script) : Except LoadErr RootDependency :=
  match s.runSetupResult with
  | .error e => .error (.fallback e)
  | .ok kw => assembleRoot (Distribution.ofKwargs kw) s.readme

/-- `SetupPyConverter.load` (setuppy.py lines 76-139): safe extraction
first, fallback full execution when it yields nothing, then assembly.
Returns the result plus the emitted log records. -/
def SetupPyConverter.load (s : Script) :
    Except LoadErr RootDependency × List LogEvent :=
  (match (SetupPyConverter._execute s).1 with
   | some info => assembleRoot info s.readme
   | none => loadFallback s,
   (SetupPyConverter._execute s).2)

/-- `load` specialised to a well-formed script given by its captured
keyword arguments (the semantic content of the single setup invocation). -/
def loadKwargs (kw : Kwargs) (readme : Option Str) : Except LoadErr RootDependency :=
  assembleRoot (Distribution.ofKwargs kw) readme

/-! ## The emitter -/

/-- A value of an emitted keyword pair: a string, a list/tuple of strings,
a string-to-string mapping, or a string-to-string-list mapping. -/
inductive DumpVal where
  | str (s : Str)
  | strs (xs : List Str)
  | strDict (xs : List (Str × Str))
  | strsDict (xs : List (Str × List Str))
deriving DecidableEq, Repr

/-- `defaultdict(list)`-style append: add `v` under key `k`, creating the
key at the end on first use (Python dict insertion order). -/
def addToGroup {β : Type} (m : List (Str × List β)) (k : Str) (v : β) :
    List (Str × List β) :=
  match m with
  | [] => [(k, [v])]
  | p :: rest => if p.1 = k then (k, p.2 ++ [v]) :: rest else p :: addToGroup rest k v

/-- Group a list of pairs with `defaultdict(list)` semantics. -/
def regroup {β : Type} (xs : List (Str × β)) : List (Str × List β) :=
  xs.foldl (fun m p => addToGroup m p.1 p.2) []

/-- Lexicographic comparison of embedded strings (Python `sorted`). -/
def strLe : Str → Str → Bool
  | [], _ => true
  | _ :: _, [] => false
  | a :: as, b :: bs => if a = b then strLe as bs else decide (a < b)

/-- Insertion step of `sortStrs`. -/
def insertSorted (x : Str) : List Str → List Str
  | [] => [x]
  | y :: ys => if strLe x y then x :: y :: ys else y :: insertSorted x ys

/-- Python `sorted` over embedded strings (insertion sort). -/
def sortStrs (xs : List Str) : List Str := xs.foldr insertSorted []

/-- Python `key in dict` / `dict[key]` over an insertion-ordered map. -/
def lookupStr {β : Type} : List (Str × β) → Str → Option β
  | [], _ => none
  | p :: rest, k => if p.1 = k then some p.2 else lookupStr rest k

/-- Modelled from the spec: `RangeSpecifier.peppify` — re-render the
supported-runtime range as a dependency-specifier string (an opaque
collaborator; the embedding keeps the stored string). -/
def peppify (s : Str) : Str := s

/-- setuppy.py lines 201-206: the `extras_require` mapping — every
requirement with a named environment is rendered once and appended under
each of its environment names. -/
def buildExtras (reqs : List Req) : List (Str × List Str) :=
  reqs.foldl (fun m req =>
    if req.main_envs ≠ [] then
      let formatted := SetupPyConverter._format_req req
      req.main_envs.foldl (fun m env => addToGroup m env formatted) m
    else m) []

/-- One unconditional keyword pair of the emitted content. -/
def segAlways (k : String) (v : DumpVal) : List (String × DumpVal) := [(k, v)]

/-- One keyword pair emitted under a truthiness test. -/
def segIf (b : Bool) (k : String) (v : DumpVal) : List (String × DumpVal) :=
  if b then [(k, v)] else []

/-- One keyword pair emitted when an optional value is present. -/
def segOpt {α : Type} (o : Option α) (k : String) (f : α → DumpVal) :
    List (String × DumpVal) :=
  match o with
  | some a => [(k, f a)]
  | none => []

/-- setuppy.py lines 164-174: the author/maintainer pairs from the first
two authors (additional authors are dropped). -/
def authorsContent (authors : List Author) : List (String × DumpVal) :=
  (match authors with
   | [] => []
   | a :: _ =>
     segAlways "author" (.str a.name)
     ++ segIf (pyTruthy a.mail) "author_email" (.str a.mail))
  ++ (match authors with
      | _ :: b :: _ =>
        segAlways "maintainer" (.str b.name)
        ++ segIf (pyTruthy b.mail) "maintainer_email" (.str b.mail)
      | _ => [])

/-- `SetupPyConverter.dumps` (setuppy.py lines 141-216): the ordered
`(keyword, value)` pairs interpolated into the emitted script's setup
call, in source order. (The surrounding fixed template, the readme
assignment and the optional beautifiers only wrap this list in source
text.) -/
def SetupPyConverter.dumpsContent (reqs : List Req) (project : RootDependency) :
    List (String × DumpVal) :=
  segAlways "name" (.str project.raw_name)
  ++ (segAlways "version" (.str project.version)
  ++ (segIf (pyTruthy project.description) "description" (.str project.description)
  ++ (segIf (pyTruthy project.python) "python_requires" (.str (peppify project.python))
  ++ (segOpt (lookupStr project.links (chars "home")) "url" (fun v => .str v)
  ++ (segOpt (lookupStr project.links (chars "download")) "download_url" (fun v => .str v)
  ++ (segIf (!project.links.isEmpty) "project_urls" (.strDict project.links)
  ++ (authorsContent project.authors
  ++ (segIf (pyTruthy project.license) "license" (.str project.license)
  ++ (segIf (!project.keywords.isEmpty) "keywords"
       (.str (List.intercalate (chars " ") project.keywords))
  ++ (segIf (!project.classifiers.isEmpty) "classifiers" (.strs project.classifiers)
  ++ (segIf (!project.platforms.isEmpty) "platforms" (.strs project.platforms)
  ++ (segIf (!project.entrypoints.isEmpty) "entry_points"
       (.strsDict (regroup (project.entrypoints.map
         (fun ep => (ep.group, EntryPoint.render ep)))))
  ++ (segAlways "packages" (.strs (sortStrs project.package.packages))
  ++ (segAlways "package_data"
       (.strsDict ((regroup (project.package.data.map
         (fun r => (r.module, r.relative)))).map (fun kv => (kv.1, sortStrs kv.2))))
  ++ (segAlways "install_requires"
       (.strs ((reqs.filter (fun r => r.main_envs = [])).map SetupPyConverter._format_req))
  ++ segIf (!(buildExtras reqs).isEmpty) "extras_require"
       (.strsDict (buildExtras reqs)))))))))))))))))

/-- Keyword lookup in an emitted content list. -/
def findVal : List (String × DumpVal) → String → Option DumpVal
  | [], _ => none
  | p :: rest, k => if p.1 = k then some p.2 else findVal rest k

/-- Read an emitted value as a scalar string attribute. -/
def asStr : Option DumpVal → Option Str
  | some (.str s) => some s
  | _ => none

/-- Read an emitted value as an iterable of strings (a string iterates to
its characters, a list to its elements). -/
def asStrs : Option DumpVal → Option PyStrs
  | some (.str s) => some (.str s)
  | some (.strs xs) => some (.list xs)
  | _ => none

/-- Read an emitted value as a string-to-string-list mapping. -/
def asStrsDict : Option DumpVal → Option (List (Str × List Str))
  | some (.strsDict m) => some m
  | _ => none

/-- Modelled from the spec: the keyword arguments the emitted script's
setup call carries. A second `load` of the dumped script captures exactly
the emitted keyword pairs (§4.1, §6), so reloading the emitted script is
loading these kwargs. -/
def kwargsOfContent (c : List (String × DumpVal)) : Kwargs where
  name := asStr (findVal c "name")
  version := asStr (findVal c "version")
  description := asStr (findVal c "description")
  license := asStr (findVal c "license")
  python_requires := asStr (findVal c "python_requires")
  url := asStr (findVal c "url")
  download_url := asStr (findVal c "download_url")
  author := asStr (findVal c "author")
  author_email := asStr (findVal c "author_email")
  maintainer := asStr (findVal c "maintainer")
  maintainer_email := asStr (findVal c "maintainer_email")
  keywords := asStrs (findVal c "keywords")
  classifiers := asStrs (findVal c "classifiers")
  platforms := asStrs (findVal c "platforms")
  install_requires := asStrs (findVal c "install_requires")
  entry_points := asStrsDict (findVal c "entry_points")
  extras_require := asStrsDict (findVal c "extras_require")

/-! ## `_patched_open` and the package manager -/

/-- An in-memory buffer returned by the patched `open` (a `BytesIO` or a
`StringIO`). -/
inductive Buffer where
  | bytes (content : List UInt8)
  | text (content : Str)
deriving DecidableEq, Repr

/-- The UTF-8 encoding of an embedded string (`str.encode('utf8')`). -/
def utf8Bytes (s : Str) : List UInt8 := s.flatMap String.utf8EncodeChar

/-- `_patched_open` (setuppy.py lines 56-59): a pure function of the file
name and mode only — it never consults a file system; the buffer's whole
content is the name itself, UTF-8 encoded in binary mode. -/
def _patched_open (fname : Str) (mode : Str) : Buffer :=
  if 'b' ∈ mode then Buffer.bytes (utf8Bytes fname)
  else Buffer.text fname

/-- The observable outcome of the installer child process: its exit code
and its captured standard-error text. -/
structure ProcResult where
  returncode : Int
  stderr : Str
deriving DecidableEq, Repr

/-- `PackageManager.run` (package_manager.py lines 33-47), from the point
where both child processes have finished: log the captured stderr at
error level when the installer's exit code is non-zero, at debug level
otherwise, and return the exit code as the call's own result — the
function never raises. -/
def PackageManager.run (res : ProcResult) : Int × List LogEvent :=
  if res.returncode ≠ 0 then
    (res.returncode, [⟨.error, res.stderr⟩])
  else
    (res.returncode, [⟨.debug, res.stderr⟩])

/-! ## Strip lemmas -/

/-- The head surviving `dropWhile` fails the predicate. -/
theorem dropWhile_head_false {p : Char → Bool} :
    ∀ (l : Str) {x : Char} {xs : Str}, List.dropWhile p l = x :: xs → p x = false := by
  intro l
  induction l with
  | nil => intro x xs h; simp [List.dropWhile] at h
  | cons a as ih =>
    intro x xs h
    by_cases hp : p a
    · rw [List.dropWhile_cons_of_pos hp] at h
      exact ih h
    · rw [List.dropWhile_cons_of_neg hp] at h
      cases h
      simpa using hp

/-- `pyRstrip` keeps the head (or empties the list). -/
theorem pyRstrip_cons (x : Char) (xs : Str) :
    pyRstrip (x :: xs) = [] ∨ ∃ t, pyRstrip (x :: xs) = x :: t := by
  simp only [pyRstrip]
  by_cases h : (pyRstrip xs = [] && pyIsSpace x) = true
  · left; simp [h]
  · right; exact ⟨pyRstrip xs, by simp [h]⟩

/-- `pyRstrip` is idempotent. -/
theorem pyRstrip_idem (l : Str) : pyRstrip (pyRstrip l) = pyRstrip l := by
  induction l with
  | nil => rfl
  | cons x xs ih =>
    simp only [pyRstrip]
    by_cases h : (pyRstrip xs = [] && pyIsSpace x) = true
    · simp [h, pyRstrip]
    · simp only [h, if_false]
      simp only [pyRstrip, ih]
      simp only [Bool.and_eq_true, decide_eq_true_eq] at h
      by_cases he : pyRstrip xs = []
      · have hx : pyIsSpace x = false := by
          rcases Bool.eq_false_or_eq_true (pyIsSpace x) with ht | hf
          · exact absurd ⟨he, ht⟩ h
          · exact hf
        simp [he, hx]
      · simp [he]

/-- Stripping an already-stripped string changes nothing. -/
theorem pyStrip_idem (s : Str) : pyStrip (pyStrip s) = pyStrip s := by
  unfold pyStrip
  have h1 : pyLstrip (pyRstrip (pyLstrip s)) = pyRstrip (pyLstrip s) := by
    cases hl : pyLstrip s with
    | nil => simp [pyRstrip, pyLstrip]
    | cons x xs =>
      have hx : pyIsSpace x = false := dropWhile_head_false s hl
      rcases pyRstrip_cons x xs with h | ⟨t, h⟩
      · simp [h, pyLstrip]
      · rw [h]
        show pyLstrip (x :: t) = x :: t
        unfold pyLstrip
        rw [List.dropWhile_cons_of_neg (show ¬ pyIsSpace x = true by simp [hx])]
  rw [h1, pyRstrip_idem]

/-- A whitespace-only string strips to the empty string. -/
theorem pyStrip_all_space (s : Str) (h : ∀ c ∈ s, pyIsSpace c = true) :
    pyStrip s = [] := by
  unfold pyStrip pyLstrip
  have : s.dropWhile pyIsSpace = [] := by
    induction s with
    | nil => rfl
    | cons x xs ih =>
      rw [List.dropWhile_cons_of_pos (h x (by simp))]
      exact ih (fun c hc => h c (by simp [hc]))
  rw [this]
  rfl

/-- A whitespace-only string is not the sentinel `UNKNOWN`. -/
theorem all_space_ne_unknown (s : Str) (h : ∀ c ∈ s, pyIsSpace c = true) :
    s ≠ chars "UNKNOWN" := by
  intro he
  subst he
  have := h 'U' (by decide)
  simp [pyIsSpace] at this

/-! ## Inversion of the load pipeline -/

/-- Inversion of `assembleRoot`: a successful assembly pins down the whole
record and the success of both dependency-parsing passes. -/
theorem assembleRoot_ok {info : Distribution} {readme : Option Str}
    {root : RootDependency} (h : assembleRoot info readme = .ok root) :
    ∃ instDeps exDeps,
      loadInstallDeps (SetupPyConverter._get_list info "install_requires") = .ok instDeps
      ∧ loadExtras (info.extras_require.getD []) = .ok exDeps
      ∧ root = loadedRoot info readme (instDeps ++ exDeps) := by
  unfold assembleRoot at h
  cases h1 : loadInstallDeps (SetupPyConverter._get_list info "install_requires") with
  | error e => rw [h1] at h; exact absurd h (by simp)
  | ok instDeps =>
    rw [h1] at h
    cases h2 : loadExtras (info.extras_require.getD []) with
    | error e => rw [h2] at h; exact absurd h (by simp)
    | ok exDeps =>
      rw [h2] at h
      simp only [Except.ok.injEq] at h
      exact ⟨instDeps, exDeps, rfl, rfl, h.symm⟩

/-! ## C7: `_get` semantics -/

/-- C7: `_get` prefers the `.metadata` sub-object's attribute over the
top-level attribute whenever the metadata value is present and non-empty;
it returns `''` for the sentinel `UNKNOWN` and for whitespace-only values
of either source, and strips surrounding whitespace from any other value
it returns. -/
theorem c7_get_semantics (msg : Distribution) (n : String) :
    (∀ v, msg.metadata n = some v → v ≠ [] →
      SetupPyConverter._get msg n = (if v = chars "UNKNOWN" then [] else pyStrip v))
    ∧ ((msg.metadata n = none ∨ msg.metadata n = some []) →
        ∀ w, msg.attrs n = some w → w ≠ [] →
          SetupPyConverter._get msg n = (if w = chars "UNKNOWN" then [] else pyStrip w))
    ∧ (∀ v, msg.metadata n = some v → v ≠ [] → (∀ c ∈ v, pyIsSpace c = true) →
        SetupPyConverter._get msg n = [])
    ∧ ((msg.metadata n = none ∨ msg.metadata n = some []) →
        ∀ w, msg.attrs n = some w → (∀ c ∈ w, pyIsSpace c = true) →
          SetupPyConverter._get msg n = []) := by
  refine ⟨?_, ?_, ?_, ?_⟩
  · intro v hv hne
    simp [SetupPyConverter._get, hv, pyTruthy, hne]
  · intro hm w hw hne
    rcases hm with hm | hm <;>
      simp [SetupPyConverter._get, hm, hw, pyTruthy, hne]
  · intro v hv hne hsp
    have h1 : SetupPyConverter._get msg n = (if v = chars "UNKNOWN" then [] else pyStrip v) := by
      simp [SetupPyConverter._get, hv, pyTruthy, hne]
    rw [h1, if_neg (all_space_ne_unknown v hsp), pyStrip_all_space v hsp]
  · intro hm w hw hsp
    by_cases hne : w = []
    · subst hne
      rcases hm with hm | hm <;> simp [SetupPyConverter._get, hm, hw, pyTruthy]
    · have h1 : SetupPyConverter._get msg n = (if w = chars "UNKNOWN" then [] else pyStrip w) := by
        rcases hm with hm | hm <;> simp [SetupPyConverter._get, hm, hw, pyTruthy, hne]
      rw [h1, if_neg (all_space_ne_unknown w hsp), pyStrip_all_space w hsp]

/-- A concrete distribution object exercising `c7_get_semantics`. -/
def c7msg : Distribution :=
  ⟨fun n => if n = "license" then some (chars " MIT ") else none,
   fun n => if n = "license" then some (chars "GPL") else none,
   fun _ => none, none, none⟩

/-- Witness for C7: on a concrete object whose metadata and top level both
carry a `license`, `_get` returns the stripped metadata value. -/
theorem c7_get_semantics_witness :
    SetupPyConverter._get c7msg "license" = chars "MIT" := by
  have h := (c7_get_semantics c7msg "license").1 (chars " MIT ") (by rfl) (by decide)
  rw [h]
  decide

/-! ## C8: installer exit-code propagation -/

/-- C8: `run()` returns the installer subprocess's exit code as its own
result (never raising — the embedding is a total function into an exit
code), logs the captured stderr text at error level exactly when that
code is non-zero and at debug level otherwise; in particular exit code 1
yields result 1 with the stderr logged at error level. -/
theorem c8_run_exit_code :
    (∀ res : ProcResult,
      (PackageManager.run res).1 = res.returncode
      ∧ ((⟨.error, res.stderr⟩ : LogEvent) ∈ (PackageManager.run res).2 ↔ res.returncode ≠ 0)
      ∧ ((⟨.debug, res.stderr⟩ : LogEvent) ∈ (PackageManager.run res).2 ↔ res.returncode = 0))
    ∧ PackageManager.run ⟨1, chars "boom"⟩ = (1, [⟨.error, chars "boom"⟩]) := by
  constructor
  · intro res
    by_cases h : res.returncode = 0 <;> simp [PackageManager.run, h]
  · decide

/-! ## C9: the version invariant -/

/-- C9: every `RootDependency` a successful `load` produces has a
non-empty version, and when the script supplies no version — the keyword
absent, the literal `UNKNOWN`, or a blank string — the version is exactly
`0.0.0` instead of the load failing or the field staying empty. -/
theorem c9_version_default :
    (∀ (s : Script) (root : RootDependency),
      (SetupPyConverter.load s).1 = .ok root → root.version ≠ [])
    ∧ (∀ (kw : Kwargs) (readme : Option Str) (root : RootDependency),
        loadKwargs kw readme = .ok root →
        (kw.version = none ∨ kw.version = some (chars "UNKNOWN")
          ∨ (∃ v, kw.version = some v ∧ ∀ c ∈ v, pyIsSpace c = true)) →
        root.version = chars "0.0.0") := by
  constructor
  · intro s root h
    have hroot : ∃ info, assembleRoot info s.readme = .ok root := by
      unfold SetupPyConverter.load at h
      cases he : (SetupPyConverter._execute s).1 with
      | some info => rw [he] at h; exact ⟨info, h⟩
      | none =>
        rw [he] at h
        unfold loadFallback at h
        cases hr : s.runSetupResult with
        | error e => rw [hr] at h; exact absurd h (by simp)
        | ok kw => rw [hr] at h; exact ⟨Distribution.ofKwargs kw, h⟩
    obtain ⟨info, hinfo⟩ := hroot
    obtain ⟨i, e, _, _, hrec⟩ := assembleRoot_ok hinfo
    rw [hrec]
    show (if SetupPyConverter._get info "version" = [] then chars "0.0.0"
          else SetupPyConverter._get info "version") ≠ []
    by_cases hv : SetupPyConverter._get info "version" = []
    · rw [if_pos hv]; decide
    · rw [if_neg hv]; exact hv
  · intro kw readme root h habs
    obtain ⟨i, e, _, _, hrec⟩ := assembleRoot_ok h
    have hget : SetupPyConverter._get (Distribution.ofKwargs kw) "version" = [] := by
      rcases habs with h0 | h0 | ⟨v, h0, hsp⟩
      · simp [SetupPyConverter._get, Distribution.ofKwargs, h0]
      · simp [SetupPyConverter._get, Distribution.ofKwargs, h0, pyTruthy, chars]
      · by_cases hne : v = []
        · subst hne; simp [SetupPyConverter._get, Distribution.ofKwargs, h0, pyTruthy]
        · have := ((c7_get_semantics (Distribution.ofKwargs kw) "version").2.2.2)
            (Or.inl rfl) v (by simp [Distribution.ofKwargs, h0]) hsp
          exact this
    rw [hrec]
    show (if SetupPyConverter._get (Distribution.ofKwargs kw) "version" = []
          then chars "0.0.0"
          else SetupPyConverter._get (Distribution.ofKwargs kw) "version") = chars "0.0.0"
    rw [if_pos hget]

/-- Witness for C9: a script carrying only a name loads with version
`0.0.0`, which is non-empty. -/
theorem c9_version_default_witness :
    ∃ root, loadKwargs { name := some (chars "pkg") } none = .ok root
      ∧ root.version = chars "0.0.0" ∧ root.version ≠ [] := by
  refine ⟨loadedRoot (Distribution.ofKwargs { name := some (chars "pkg") }) none [], by rfl, ?_, ?_⟩
  · exact c9_version_default.2 { name := some (chars "pkg") } none _ (by rfl) (Or.inl rfl)
  · exact c9_version_default.1
      ⟨chars "setup()", none, some { name := some (chars "pkg") }, .error ⟨[]⟩, none⟩ _ (by rfl)

/-! ## C10: the patched `open` -/

/-- C10: during safe extraction the patched `open` never consults a file
system — it is a pure function of the file name and mode whose buffer
content is the `fname` argument itself, UTF-8 encoded when the mode
contains `b` and as text otherwise; so a script reading a README gets the
README's path string, never file contents. The concrete conjuncts
exercise both modes on `README.md`. -/
theorem c10_patched_open :
    (∀ fname mode : Str, 'b' ∉ mode → _patched_open fname mode = Buffer.text fname)
    ∧ (∀ fname mode : Str, 'b' ∈ mode →
        _patched_open fname mode = Buffer.bytes (utf8Bytes fname))
    ∧ _patched_open (chars "README.md") (chars "r") = Buffer.text (chars "README.md")
    ∧ _patched_open (chars "README.md") (chars "rb")
        = Buffer.bytes [82, 69, 65, 68, 77, 69, 46, 109, 100] := by
  refine ⟨?_, ?_, by decide, by decide⟩
  · intro fname mode h
    simp [_patched_open, h]
  · intro fname mode h
    simp [_patched_open, h]

/-- Witness for C10: the general branches applied at `README.md`. -/
theorem c10_patched_open_witness :
    _patched_open (chars "README.md") (chars "r") = Buffer.text (chars "README.md")
    ∧ _patched_open (chars "README.md") (chars "wb")
      = Buffer.bytes (utf8Bytes (chars "README.md")) :=
  ⟨c10_patched_open.1 (chars "README.md") (chars "r") (by decide),
   c10_patched_open.2.1 (chars "README.md") (chars "wb") (by decide)⟩

/-! ## C5: extras envs tagging -/

/-- Each dependency built by `depsForExtraReqs` carries exactly the
computed `envs`. -/
theorem depsForExtraReqs_envs (marker : Option Str) (envs : List Str) :
    ∀ (rs : List Str) (ds : List Dependency),
      depsForExtraReqs marker envs rs = .ok ds → ∀ d ∈ ds, d.envs = envs := by
  intro rs
  induction rs with
  | nil =>
    intro ds h d hd
    simp only [depsForExtraReqs, Except.ok.injEq] at h
    subst h
    cases hd
  | cons r rest ih =>
    intro ds h d hd
    simp only [depsForExtraReqs] at h
    cases hp : parseReq r with
    | none => rw [hp] at h; exact absurd h (by simp)
    | some req =>
      rw [hp] at h
      cases hrec : depsForExtraReqs marker envs rest with
      | error e => rw [hrec] at h; exact absurd h (by simp)
      | ok ds' =>
        rw [hrec] at h
        simp only [Except.ok.injEq] at h
        subst h
        rcases List.mem_append.1 hd with hm | hm
        · simp only [DependencyMaker.from_requirement, List.map_cons, List.map_nil,
            List.mem_singleton] at hm
          subst hm
          rfl
        · exact ih ds' hrec d hm

/-- Membership in the `envs` list computed for an extra name. -/
theorem mem_extraEnvs (b e : Str) :
    e ∈ extraEnvs b ↔
      (if b = chars "dev" then e = chars "dev" else e = chars "main" ∨ e = b) := by
  unfold extraEnvs
  by_cases h1 : b = chars "dev"
  · subst h1; simp
  · by_cases h2 : b = chars "main"
    · subst h2; simp [h1]
    · simp [h1, h2]

/-- Every dependency produced by the extras loop comes from some entry. -/
theorem loadExtras_member :
    ∀ (entries : List (Str × List Str)) (allDs : List Dependency),
      loadExtras entries = .ok allDs → ∀ d ∈ allDs,
        ∃ p, p ∈ entries ∧ ∃ ds', depsForExtra p.1 p.2 = .ok ds' ∧ d ∈ ds' := by
  intro entries
  induction entries with
  | nil =>
    intro allDs h d hd
    simp only [loadExtras, Except.ok.injEq] at h
    subst h
    cases hd
  | cons p rest ih =>
    intro allDs h d hd
    obtain ⟨k, rs⟩ := p
    simp only [loadExtras] at h
    cases h1 : depsForExtra k rs with
    | error e => rw [h1] at h; exact absurd h (by simp)
    | ok ds1 =>
      rw [h1] at h
      cases h2 : loadExtras rest with
      | error e => rw [h2] at h; exact absurd h (by simp)
      | ok ds2 =>
        rw [h2] at h
        simp only [Except.ok.injEq] at h
        subst h
        rcases List.mem_append.1 hd with hm | hm
        · exact ⟨(k, rs), List.mem_cons_self _ _, ds1, h1, hm⟩
        · obtain ⟨p, hp, ds', hds', hd'⟩ := ih ds2 h2 d hm
          exact ⟨p, List.mem_cons_of_mem _ hp, ds', hds', hd'⟩

/-- C5: during load, every dependency parsed from an extras entry is
tagged with the `envs` computed from the extra key's base name (after the
marker suffix is split off): `{'dev'}` when the base name is exactly
`dev`, and `{'main', name}` for every other name; and every dependency
the extras loop attaches comes from such an entry. -/
theorem c5_extras_envs :
    (∀ (key : Str) (reqStrings : List Str) (ds : List Dependency),
      depsForExtra key reqStrings = .ok ds → ∀ d ∈ ds,
        d.envs = extraEnvs (_split_extra_and_marker key).1
        ∧ (∀ e, e ∈ d.envs ↔
            (if (_split_extra_and_marker key).1 = chars "dev"
             then e = chars "dev"
             else e = chars "main" ∨ e = (_split_extra_and_marker key).1)))
    ∧ (∀ (entries : List (Str × List Str)) (allDs : List Dependency),
        loadExtras entries = .ok allDs → ∀ d ∈ allDs,
          ∃ p, p ∈ entries ∧ ∃ ds', depsForExtra p.1 p.2 = .ok ds' ∧ d ∈ ds') := by
  constructor
  · intro key reqStrings ds h d hd
    have he : d.envs = extraEnvs (_split_extra_and_marker key).1 :=
      depsForExtraReqs_envs (_split_extra_and_marker key).2
        (extraEnvs (_split_extra_and_marker key).1) reqStrings ds h d hd
    refine ⟨he, fun e => ?_⟩
    rw [he]
    exact mem_extraEnvs _ e
  · exact loadExtras_member

/-- Witness for C5: the concrete extras entry `test: [flask>=1.0]` yields
one dependency with envs `{'main', 'test'}`, and `dev: [pytest]` yields
envs `{'dev'}`. -/
theorem c5_extras_envs_witness :
    (∃ ds d, depsForExtra (chars "test") [chars "flask>=1.0"] = .ok ds ∧ d ∈ ds
      ∧ d.envs = extraEnvs (_split_extra_and_marker (chars "test")).1
      ∧ d.envs = [chars "main", chars "test"])
    ∧ (∃ ds d, depsForExtra (chars "dev") [chars "pytest"] = .ok ds ∧ d ∈ ds
      ∧ d.envs = [chars "dev"]) := by
  constructor
  · have hok : depsForExtra (chars "test") [chars "flask>=1.0"]
        = .ok [⟨chars "flask", [], chars ">=1.0", [], [chars "main", chars "test"]⟩] := by
      rfl
    have hmem : (⟨chars "flask", [], chars ">=1.0", [],
        [chars "main", chars "test"]⟩ : Dependency)
        ∈ [(⟨chars "flask", [], chars ">=1.0", [],
            [chars "main", chars "test"]⟩ : Dependency)] := List.mem_singleton.2 rfl
    have h := (c5_extras_envs.1 (chars "test") [chars "flask>=1.0"] _ hok _ hmem).1
    exact ⟨_, _, hok, hmem, h, by decide⟩
  · have hok : depsForExtra (chars "dev") [chars "pytest"]
        = .ok [⟨chars "pytest", [], [], [], [chars "dev"]⟩] := by
      rfl
    have hmem : (⟨chars "pytest", [], [], [], [chars "dev"]⟩ : Dependency)
        ∈ [(⟨chars "pytest", [], [], [], [chars "dev"]⟩ : Dependency)] :=
      List.mem_singleton.2 rfl
    exact ⟨_, _, hok, hmem,
      ((c5_extras_envs.1 (chars "dev") [chars "pytest"] _ hok _ hmem).1).trans (by decide)⟩

/-! ## Replace/no-op lemmas for C3 -/

/-- Without an occurrence of the pattern, `replaceSubAux` is the
identity. -/
theorem replaceSubAux_no_occur (pat repl : Str) :
    ∀ (fuel : Nat) (s : Str), occursSub pat s = false →
      replaceSubAux pat repl fuel s = s := by
  intro fuel
  induction fuel with
  | zero => intro s _; cases s <;> rfl
  | succ f ih =>
    intro s h
    cases s with
    | nil => rfl
    | cons x xs =>
      simp only [occursSub, Bool.or_eq_false_iff] at h
      simp [replaceSubAux, h.1, ih xs h.2]

/-- Replacing with a strictly longer replacement never shrinks. -/
theorem replaceSubAux_length_ge (pat repl : Str) (hlt : pat.length < repl.length) :
    ∀ (fuel : Nat) (s : Str), s.length ≤ fuel →
      s.length ≤ (replaceSubAux pat repl fuel s).length := by
  intro fuel
  induction fuel with
  | zero =>
    intro s hs
    cases s with
    | nil => simp [replaceSubAux]
    | cons x xs => simp at hs
  | succ f ih =>
    intro s hs
    cases s with
    | nil => simp [replaceSubAux]
    | cons x xs =>
      simp only [replaceSubAux]
      by_cases hb : (pat ≠ [] && pat.isPrefixOf (x :: xs)) = true
      · rw [if_pos hb]
        simp only [List.length_append, List.length_cons]
        have hd : (xs.drop (pat.length - 1)).length ≤ f := by
          simp only [List.length_drop]
          simp only [List.length_cons] at hs
          omega
        have h1 := ih (xs.drop (pat.length - 1)) hd
        simp only [List.length_drop] at h1 ⊢
        have hpne : pat.length ≥ 1 := by
          simp only [Bool.and_eq_true, ne_eq, decide_eq_true_eq] at hb
          cases hpat : pat with
          | nil => exact absurd hpat hb.1
          | cons a as => simp [hpat]
        omega
      · rw [if_neg hb]
        simp only [List.length_cons] at hs ⊢
        have := ih xs (by omega)
        omega

/-- With an occurrence, a non-empty pattern and a strictly longer
replacement, the result is strictly longer, hence different. -/
theorem replaceSubAux_length_gt (pat repl : Str) (hpat : pat ≠ [])
    (hlt : pat.length < repl.length) :
    ∀ (fuel : Nat) (s : Str), s.length ≤ fuel → occursSub pat s = true →
      s.length < (replaceSubAux pat repl fuel s).length := by
  have hpne : 1 ≤ pat.length := by
    cases hp : pat with
    | nil => exact absurd hp hpat
    | cons a as => simp [hp]
  intro fuel
  induction fuel with
  | zero =>
    intro s hs hocc
    cases s with
    | nil =>
      simp only [occursSub, List.isEmpty_iff] at hocc
      exact absurd hocc hpat
    | cons x xs => simp at hs
  | succ f ih =>
    intro s hs hocc
    cases s with
    | nil =>
      simp only [occursSub, List.isEmpty_iff] at hocc
      exact absurd hocc hpat
    | cons x xs =>
      simp only [replaceSubAux]
      by_cases hb : (pat ≠ [] && pat.isPrefixOf (x :: xs)) = true
      · rw [if_pos hb]
        simp only [List.length_append, List.length_cons]
        have hdl : (xs.drop (pat.length - 1)).length = xs.length - (pat.length - 1) :=
          List.length_drop _ _
        have hd : (xs.drop (pat.length - 1)).length ≤ f := by
          rw [hdl]
          simp only [List.length_cons] at hs
          omega
        have h1 := replaceSubAux_length_ge pat repl hlt f (xs.drop (pat.length - 1)) hd
        rw [hdl] at h1
        omega
      · rw [if_neg hb]
        simp only [occursSub, Bool.or_eq_true] at hocc
        rcases hocc with hocc | hocc
        · exfalso
          apply hb
          simp only [Bool.and_eq_true, ne_eq, decide_eq_true_eq]
          exact ⟨hpat, hocc⟩
        · simp only [List.length_cons]
          have := ih xs (by simp only [List.length_cons] at hs; omega) hocc
          omega

/-- The source rewrite of `_execute` is a no-op exactly when the source
has no `setup(` call-site marker. -/
theorem replace_setup_noop_iff (s : Str) :
    replaceSub (chars "setup(") (chars "_dist = dict(") s = s
      ↔ occursSub (chars "setup(") s = false := by
  constructor
  · intro h
    by_contra hne
    have hocc : occursSub (chars "setup(") s = true := by
      cases hv : occursSub (chars "setup(") s with
      | false => exact absurd hv hne
      | true => rfl
    have := replaceSubAux_length_gt (chars "setup(") (chars "_dist = dict(")
      (by decide) (by decide) s.length s (le_refl _) hocc
    rw [show replaceSubAux (chars "setup(") (chars "_dist = dict(") s.length s
        = replaceSub (chars "setup(") (chars "_dist = dict(") s from rfl, h] at this
    omega
  · intro h
    exact replaceSubAux_no_occur _ _ s.length s h

/-! ## C3: the safe-extraction path never raises -/

/-- C3: `_execute` never raises (its embedded type has no error channel:
every outcome is a distribution-or-`none` plus log records); when the
source has no `setup(` marker the rewrite is a no-op and `_execute`
reports "no metadata" with an error-level log; when execution does not
populate `_dist` the result is likewise `none`; whenever `_execute`
yields `none`, `load` proceeds with the fallback full execution; and an
exception raised while executing the rewritten source is caught and
logged, never propagated. -/
theorem c3_execute_recoverable (s : Script) :
    (occursSub (chars "setup(") s.source = false →
      SetupPyConverter._execute s
        = (none, [⟨.error, chars "cannot modify source"⟩]))
    ∧ (s.execDist = none → (SetupPyConverter._execute s).1 = none)
    ∧ ((SetupPyConverter._execute s).1 = none →
        (SetupPyConverter.load s).1 = loadFallback s)
    ∧ (∀ e, s.execRaised = some e → occursSub (chars "setup(") s.source = true →
        (⟨.error, e.msg⟩ : LogEvent) ∈ (SetupPyConverter._execute s).2) := by
  refine ⟨?_, ?_, ?_, ?_⟩
  · intro h
    have hnoop := (replace_setup_noop_iff s.source).2 h
    simp only [SetupPyConverter._execute, hnoop, if_pos]
  · intro h
    simp only [SetupPyConverter._execute]
    by_cases hnoop : replaceSub (chars "setup(") (chars "_dist = dict(") s.source = s.source
    · simp [hnoop]
    · simp [hnoop, h]
  · intro h
    simp only [SetupPyConverter.load, h]
  · intro e he hocc
    have hnoop : ¬ replaceSub (chars "setup(") (chars "_dist = dict(") s.source = s.source := by
      intro hx
      rw [(replace_setup_noop_iff s.source).1 hx] at hocc
      cases hocc
    simp only [SetupPyConverter._execute, if_neg hnoop, he]
    cases s.execDist <;> simp

/-- Witness for C3: a markerless script is reported as "no metadata" and
control passes to the fallback. -/
theorem c3_execute_recoverable_witness :
    SetupPyConverter._execute ⟨chars "import this", none, none, .error ⟨chars "boom"⟩, none⟩
      = (none, [⟨.error, chars "cannot modify source"⟩])
    ∧ (SetupPyConverter.load ⟨chars "import this", none, none, .error ⟨chars "boom"⟩, none⟩).1
      = loadFallback ⟨chars "import this", none, none, .error ⟨chars "boom"⟩, none⟩ := by
  have h := c3_execute_recoverable ⟨chars "import this", none, none, .error ⟨chars "boom"⟩, none⟩
  exact ⟨h.1 (by decide), h.2.2.1 (by rw [h.1 (by decide)])⟩

/-! ## C2: how `load` can fail -/

/-- An error from the `install_requires` pass is a parser rejection. -/
theorem loadInstallDeps_error :
    ∀ (rs : List Str) (err : LoadErr), loadInstallDeps rs = .error err →
      ∃ line, err = .invalidRequirement line ∧ parseReq line = none := by
  intro rs
  induction rs with
  | nil => intro err h; exact absurd h (by simp [loadInstallDeps])
  | cons r rest ih =>
    intro err h
    simp only [loadInstallDeps] at h
    cases hp : parseReq r with
    | none =>
      rw [hp] at h
      simp only [Except.error.injEq] at h
      exact ⟨r, h.symm, hp⟩
    | some req =>
      rw [hp] at h
      cases hrec : loadInstallDeps rest with
      | error e => rw [hrec] at h; simp only [Except.error.injEq] at h; subst h; exact ih e hrec
      | ok ds => rw [hrec] at h; exact absurd h (by simp)

/-- An error from one extras entry is a parser rejection. -/
theorem depsForExtraReqs_error (marker : Option Str) (envs : List Str) :
    ∀ (rs : List Str) (err : LoadErr), depsForExtraReqs marker envs rs = .error err →
      ∃ line, err = .invalidRequirement line ∧ parseReq line = none := by
  intro rs
  induction rs with
  | nil => intro err h; exact absurd h (by simp [depsForExtraReqs])
  | cons r rest ih =>
    intro err h
    simp only [depsForExtraReqs] at h
    cases hp : parseReq r with
    | none =>
      rw [hp] at h
      simp only [Except.error.injEq] at h
      exact ⟨r, h.symm, hp⟩
    | some req =>
      rw [hp] at h
      cases hrec : depsForExtraReqs marker envs rest with
      | error e => rw [hrec] at h; simp only [Except.error.injEq] at h; subst h; exact ih e hrec
      | ok ds => rw [hrec] at h; exact absurd h (by simp)

/-- An error from the extras loop is a parser rejection. -/
theorem loadExtras_error :
    ∀ (entries : List (Str × List Str)) (err : LoadErr), loadExtras entries = .error err →
      ∃ line, err = .invalidRequirement line ∧ parseReq line = none := by
  intro entries
  induction entries with
  | nil => intro err h; exact absurd h (by simp [loadExtras])
  | cons p rest ih =>
    intro err h
    obtain ⟨k, rs⟩ := p
    simp only [loadExtras] at h
    cases h1 : depsForExtra k rs with
    | error e =>
      rw [h1] at h
      simp only [Except.error.injEq] at h
      subst h
      exact depsForExtraReqs_error _ _ rs e h1
    | ok ds1 =>
      rw [h1] at h
      cases h2 : loadExtras rest with
      | error e => rw [h2] at h; simp only [Except.error.injEq] at h; subst h; exact ih e h2
      | ok ds2 => rw [h2] at h; exact absurd h (by simp)

/-- An error from the assembly is a parser rejection. -/
theorem assembleRoot_error {info : Distribution} {readme : Option Str} {err : LoadErr}
    (h : assembleRoot info readme = .error err) :
    ∃ line, err = .invalidRequirement line ∧ parseReq line = none := by
  unfold assembleRoot at h
  cases h1 : loadInstallDeps (SetupPyConverter._get_list info "install_requires") with
  | error e =>
    rw [h1] at h
    simp only [Except.error.injEq] at h
    subst h
    exact loadInstallDeps_error _ e h1
  | ok instDeps =>
    rw [h1] at h
    cases h2 : loadExtras (info.extras_require.getD []) with
    | error e =>
      rw [h2] at h
      simp only [Except.error.injEq] at h
      subst h
      exact loadExtras_error _ e h2
    | ok exDeps => rw [h2] at h; exact absurd h (by simp)

/-- C2 (amended): an exception raised by `run_setup` propagates unmodified
out of `load`, and — aside from the exceptions the requirement-specifier
parser raises on malformed requirement lines — this is the only way a
`load` call can fail: when the metadata requirement lines all parse,
`load` fails exactly when safe extraction yielded nothing and `run_setup`
raised, carrying that very exception. -/
theorem c2_fallback_only_failure (s : Script) :
    (∀ e, s.runSetupResult = .error e → (SetupPyConverter._execute s).1 = none →
      (SetupPyConverter.load s).1 = .error (.fallback e))
    ∧ (∀ e, (SetupPyConverter.load s).1 = .error (.fallback e) →
        (SetupPyConverter._execute s).1 = none ∧ s.runSetupResult = .error e)
    ∧ (∀ err, (SetupPyConverter.load s).1 = .error err →
        (∃ e, err = .fallback e ∧ s.runSetupResult = .error e)
        ∨ (∃ line, err = .invalidRequirement line ∧ parseReq line = none)) := by
  refine ⟨?_, ?_, ?_⟩
  · intro e he hex
    simp only [SetupPyConverter.load, hex, loadFallback, he]
  · intro e h
    simp only [SetupPyConverter.load] at h
    cases hex : (SetupPyConverter._execute s).1 with
    | some info =>
      rw [hex] at h
      obtain ⟨line, hline, _⟩ := assembleRoot_error h
      exact absurd hline (by simp)
    | none =>
      rw [hex] at h
      unfold loadFallback at h
      cases hr : s.runSetupResult with
      | error e' =>
        rw [hr] at h
        simp only [Except.error.injEq, LoadErr.fallback.injEq] at h
        subst h
        exact ⟨rfl, rfl⟩
      | ok kw =>
        rw [hr] at h
        obtain ⟨line, hline, _⟩ := assembleRoot_error h
        exact absurd hline (by simp)
  · intro err h
    simp only [SetupPyConverter.load] at h
    cases hex : (SetupPyConverter._execute s).1 with
    | some info =>
      rw [hex] at h
      exact Or.inr (assembleRoot_error h)
    | none =>
      rw [hex] at h
      unfold loadFallback at h
      cases hr : s.runSetupResult with
      | error e' =>
        rw [hr] at h
        simp only [Except.error.injEq] at h
        subst h
        exact Or.inl ⟨e', rfl, rfl⟩
      | ok kw =>
        rw [hr] at h
        exact Or.inr (assembleRoot_error h)

/-- A script whose safe extraction succeeds but whose captured
`install_requires` holds a malformed requirement line. -/
def c2script : Script :=
  ⟨chars "setup(install_requires=['???'])", none,
   some { install_requires := some (.list [chars "???"]) },
   .ok {}, none⟩

/-- Counterexample to C2 as stated: safe extraction succeeds on
`c2script` (no fallback runs, `run_setup` would even return normally),
yet `load` raises — the requirement parser rejects `???` at
setuppy.py line 124, outside any handler — and the error is not a
`run_setup` exception. So "if safe extraction succeeds ... load never
raises" is false. -/
theorem c2_counterexample :
    ((SetupPyConverter._execute c2script).1).isSome = true
    ∧ c2script.runSetupResult = .ok {}
    ∧ (SetupPyConverter.load c2script).1 = .error (.invalidRequirement (chars "???"))
    ∧ ∀ e, (SetupPyConverter.load c2script).1 ≠ .error (.fallback e) := by
  refine ⟨by rfl, by rfl, by rfl, ?_⟩
  intro e h
  rw [show (SetupPyConverter.load c2script).1
      = .error (.invalidRequirement (chars "???")) from rfl] at h
  simp only [Except.error.injEq] at h
  cases h

/-- Witness for the amended C2: a markerless script whose `run_setup`
raises `boom` makes `load` fail with exactly that exception. -/
theorem c2_fallback_only_failure_witness :
    (SetupPyConverter.load ⟨chars "import this", none, none,
      .error ⟨chars "boom"⟩, none⟩).1 = .error (.fallback ⟨chars "boom"⟩) :=
  (c2_fallback_only_failure ⟨chars "import this", none, none,
    .error ⟨chars "boom"⟩, none⟩).1 ⟨chars "boom"⟩ rfl (by rfl)

/-! ## Keyword lookup over the emitted content -/

/-- Peel an unconditional segment with a different key. -/
theorem findVal_segAlways_ne {k k' : String} (h : k ≠ k') (v : DumpVal)
    (rest : List (String × DumpVal)) :
    findVal (segAlways k v ++ rest) k' = findVal rest k' := by
  simp [segAlways, findVal, h]

/-- Read an unconditional segment at its own key. -/
theorem findVal_segAlways_eq (k : String) (v : DumpVal)
    (rest : List (String × DumpVal)) :
    findVal (segAlways k v ++ rest) k = some v := by
  simp [segAlways, findVal]

/-- Peel a conditional segment with a different key. -/
theorem findVal_segIf_ne {k k' : String} (h : k ≠ k') (b : Bool) (v : DumpVal)
    (rest : List (String × DumpVal)) :
    findVal (segIf b k v ++ rest) k' = findVal rest k' := by
  cases b <;> simp [segIf, findVal, h]

/-- Read a conditional segment at its own key, the key absent later. -/
theorem findVal_segIf_eq (b : Bool) (k : String) (v : DumpVal)
    (rest : List (String × DumpVal)) (hr : findVal rest k = none) :
    findVal (segIf b k v ++ rest) k = if b then some v else none := by
  cases b <;> simp [segIf, findVal, hr]

/-- Peel an optional segment with a different key. -/
theorem findVal_segOpt_ne {α : Type} {k k' : String} (h : k ≠ k') (o : Option α)
    (f : α → DumpVal) (rest : List (String × DumpVal)) :
    findVal (segOpt o k f ++ rest) k' = findVal rest k' := by
  cases o <;> simp [segOpt, findVal, h]

/-- Read an optional segment at its own key, the key absent later. -/
theorem findVal_segOpt_eq {α : Type} (o : Option α) (k : String) (f : α → DumpVal)
    (rest : List (String × DumpVal)) (hr : findVal rest k = none) :
    findVal (segOpt o k f ++ rest) k = o.map f := by
  cases o <;> simp [segOpt, findVal, hr]

/-- Peel the author block for any other key. -/
theorem findVal_authors_ne {k' : String} (h1 : "author" ≠ k') (h2 : "author_email" ≠ k')
    (h3 : "maintainer" ≠ k') (h4 : "maintainer_email" ≠ k')
    (authors : List Author) (rest : List (String × DumpVal)) :
    findVal (authorsContent authors ++ rest) k' = findVal rest k' := by
  unfold authorsContent
  cases authors with
  | nil => simp [findVal]
  | cons a tl =>
    cases tl with
    | nil =>
      simp only [List.append_assoc]
      rw [findVal_segAlways_ne h1, findVal_segIf_ne h2]
      simp [findVal]
    | cons b tl2 =>
      simp only [List.append_assoc]
      rw [findVal_segAlways_ne h1, findVal_segIf_ne h2,
        findVal_segAlways_ne h3, findVal_segIf_ne h4]

/-- The `author` value of the author block. -/
theorem findVal_authors_author (authors : List Author)
    (rest : List (String × DumpVal)) (hr : findVal rest "author" = none) :
    findVal (authorsContent authors ++ rest) "author"
      = match authors with
        | [] => none
        | a :: _ => some (.str a.name) := by
  unfold authorsContent
  cases authors with
  | nil => simpa [findVal] using hr
  | cons a tl =>
    simp only [List.append_assoc]
    rw [findVal_segAlways_eq]

/-- The `author_email` value of the author block. -/
theorem findVal_authors_author_email (authors : List Author)
    (rest : List (String × DumpVal)) (hr : findVal rest "author_email" = none) :
    findVal (authorsContent authors ++ rest) "author_email"
      = match authors with
        | [] => none
        | a :: _ => if pyTruthy a.mail then some (.str a.mail) else none := by
  unfold authorsContent
  cases authors with
  | nil => simpa [findVal] using hr
  | cons a tl =>
    simp only [List.append_assoc]
    rw [findVal_segAlways_ne (by decide)]
    cases tl with
    | nil =>
      rw [findVal_segIf_eq]
      simp [findVal, hr]
    | cons b tl2 =>
      dsimp only
      simp only [List.append_assoc]
      rw [findVal_segIf_eq]
      rw [findVal_segAlways_ne (by decide), findVal_segIf_ne (by decide)]
      exact hr

/-- The `maintainer` value of the author block. -/
theorem findVal_authors_maintainer (authors : List Author)
    (rest : List (String × DumpVal)) (hr : findVal rest "maintainer" = none) :
    findVal (authorsContent authors ++ rest) "maintainer"
      = match authors with
        | _ :: b :: _ => some (.str b.name)
        | _ => none := by
  unfold authorsContent
  cases authors with
  | nil => simpa [findVal] using hr
  | cons a tl =>
    simp only [List.append_assoc]
    rw [findVal_segAlways_ne (by decide), findVal_segIf_ne (by decide)]
    cases tl with
    | nil => simpa [findVal] using hr
    | cons b tl2 =>
      dsimp only
      simp only [List.append_assoc]
      rw [findVal_segAlways_eq]

/-- The `maintainer_email` value of the author block. -/
theorem findVal_authors_maintainer_email (authors : List Author)
    (rest : List (String × DumpVal)) (hr : findVal rest "maintainer_email" = none) :
    findVal (authorsContent authors ++ rest) "maintainer_email"
      = match authors with
        | _ :: b :: _ => if pyTruthy b.mail then some (.str b.mail) else none
        | _ => none := by
  unfold authorsContent
  cases authors with
  | nil => simpa [findVal] using hr
  | cons a tl =>
    simp only [List.append_assoc]
    rw [findVal_segAlways_ne (by decide), findVal_segIf_ne (by decide)]
    cases tl with
    | nil => simpa [findVal] using hr
    | cons b tl2 =>
      dsimp only
      simp only [List.append_assoc]
      rw [findVal_segAlways_ne (by decide)]
      rw [findVal_segIf_eq]
      exact hr

/-- A trailing conditional segment at another key. -/
theorem findVal_segIf_last_ne {k k' : String} (h : k ≠ k') (b : Bool) (v : DumpVal) :
    findVal (segIf b k v) k' = none := by
  cases b <;> simp [segIf, findVal, h]

/-- A trailing conditional segment at its own key. -/
theorem findVal_segIf_last_eq (b : Bool) (k : String) (v : DumpVal) :
    findVal (segIf b k v) k = if b then some v else none := by
  cases b <;> simp [segIf, findVal]

/-! ## The emitted value of every keyword `load` reads back -/

/-- The emitted `name` value. -/
theorem dumpsFind_name (reqs : List Req) (project : RootDependency) :
    findVal (SetupPyConverter.dumpsContent reqs project) "name"
      = some (.str project.raw_name) := by
  unfold SetupPyConverter.dumpsContent
  rw [findVal_segAlways_eq]

/-- The emitted `version` value. -/
theorem dumpsFind_version (reqs : List Req) (project : RootDependency) :
    findVal (SetupPyConverter.dumpsContent reqs project) "version"
      = some (.str project.version) := by
  unfold SetupPyConverter.dumpsContent
  rw [findVal_segAlways_ne (by decide), findVal_segAlways_eq]

/-- The emitted `description` value. -/
theorem dumpsFind_description (reqs : List Req) (project : RootDependency) :
    findVal (SetupPyConverter.dumpsContent reqs project) "description"
      = if pyTruthy project.description then some (.str project.description) else none := by
  unfold SetupPyConverter.dumpsContent
  rw [findVal_segAlways_ne (by decide), findVal_segAlways_ne (by decide),
    findVal_segIf_eq]
  rw [findVal_segIf_ne (by decide), findVal_segOpt_ne (by decide),
    findVal_segOpt_ne (by decide), findVal_segIf_ne (by decide),
    findVal_authors_ne (by decide) (by decide) (by decide) (by decide),
    findVal_segIf_ne (by decide), findVal_segIf_ne (by decide),
    findVal_segIf_ne (by decide), findVal_segIf_ne (by decide),
    findVal_segIf_ne (by decide), findVal_segAlways_ne (by decide),
    findVal_segAlways_ne (by decide), findVal_segAlways_ne (by decide),
    findVal_segIf_last_ne (by decide)]

/-- The emitted `python_requires` value. -/
theorem dumpsFind_python_requires (reqs : List Req) (project : RootDependency) :
    findVal (SetupPyConverter.dumpsContent reqs project) "python_requires"
      = if pyTruthy project.python then some (.str (peppify project.python)) else none := by
  unfold SetupPyConverter.dumpsContent
  rw [findVal_segAlways_ne (by decide), findVal_segAlways_ne (by decide),
    findVal_segIf_ne (by decide), findVal_segIf_eq]
  rw [findVal_segOpt_ne (by decide), findVal_segOpt_ne (by decide),
    findVal_segIf_ne (by decide),
    findVal_authors_ne (by decide) (by decide) (by decide) (by decide),
    findVal_segIf_ne (by decide), findVal_segIf_ne (by decide),
    findVal_segIf_ne (by decide), findVal_segIf_ne (by decide),
    findVal_segIf_ne (by decide), findVal_segAlways_ne (by decide),
    findVal_segAlways_ne (by decide), findVal_segAlways_ne (by decide),
    findVal_segIf_last_ne (by decide)]

/-- The emitted `url` value. -/
theorem dumpsFind_url (reqs : List Req) (project : RootDependency) :
    findVal (SetupPyConverter.dumpsContent reqs project) "url"
      = (lookupStr project.links (chars "home")).map (fun v => .str v) := by
  unfold SetupPyConverter.dumpsContent
  rw [findVal_segAlways_ne (by decide), findVal_segAlways_ne (by decide),
    findVal_segIf_ne (by decide), findVal_segIf_ne (by decide), findVal_segOpt_eq]
  rw [findVal_segOpt_ne (by decide), findVal_segIf_ne (by decide),
    findVal_authors_ne (by decide) (by decide) (by decide) (by decide),
    findVal_segIf_ne (by decide), findVal_segIf_ne (by decide),
    findVal_segIf_ne (by decide), findVal_segIf_ne (by decide),
    findVal_segIf_ne (by decide), findVal_segAlways_ne (by decide),
    findVal_segAlways_ne (by decide), findVal_segAlways_ne (by decide),
    findVal_segIf_last_ne (by decide)]

/-- The emitted `download_url` value. -/
theorem dumpsFind_download_url (reqs : List Req) (project : RootDependency) :
    findVal (SetupPyConverter.dumpsContent reqs project) "download_url"
      = (lookupStr project.links (chars "download")).map (fun v => .str v) := by
  unfold SetupPyConverter.dumpsContent
  rw [findVal_segAlways_ne (by decide), findVal_segAlways_ne (by decide),
    findVal_segIf_ne (by decide), findVal_segIf_ne (by decide),
    findVal_segOpt_ne (by decide), findVal_segOpt_eq]
  rw [findVal_segIf_ne (by decide),
    findVal_authors_ne (by decide) (by decide) (by decide) (by decide),
    findVal_segIf_ne (by decide), findVal_segIf_ne (by decide),
    findVal_segIf_ne (by decide), findVal_segIf_ne (by decide),
    findVal_segIf_ne (by decide), findVal_segAlways_ne (by decide),
    findVal_segAlways_ne (by decide), findVal_segAlways_ne (by decide),
    findVal_segIf_last_ne (by decide)]

/-- The emitted `author` value. -/
theorem dumpsFind_author (reqs : List Req) (project : RootDependency) :
    findVal (SetupPyConverter.dumpsContent reqs project) "author"
      = match project.authors with
        | [] => none
        | a :: _ => some (.str a.name) := by
  unfold SetupPyConverter.dumpsContent
  rw [findVal_segAlways_ne (by decide), findVal_segAlways_ne (by decide),
    findVal_segIf_ne (by decide), findVal_segIf_ne (by decide),
    findVal_segOpt_ne (by decide), findVal_segOpt_ne (by decide),
    findVal_segIf_ne (by decide), findVal_authors_author]
  rw [findVal_segIf_ne (by decide), findVal_segIf_ne (by decide),
    findVal_segIf_ne (by decide), findVal_segIf_ne (by decide),
    findVal_segIf_ne (by decide), findVal_segAlways_ne (by decide),
    findVal_segAlways_ne (by decide), findVal_segAlways_ne (by decide),
    findVal_segIf_last_ne (by decide)]

/-- The emitted `author_email` value. -/
theorem dumpsFind_author_email (reqs : List Req) (project : RootDependency) :
    findVal (SetupPyConverter.dumpsContent reqs project) "author_email"
      = match project.authors with
        | [] => none
        | a :: _ => if pyTruthy a.mail then some (.str a.mail) else none := by
  unfold SetupPyConverter.dumpsContent
  rw [findVal_segAlways_ne (by decide), findVal_segAlways_ne (by decide),
    findVal_segIf_ne (by decide), findVal_segIf_ne (by decide),
    findVal_segOpt_ne (by decide), findVal_segOpt_ne (by decide),
    findVal_segIf_ne (by decide), findVal_authors_author_email]
  rw [findVal_segIf_ne (by decide), findVal_segIf_ne (by decide),
    findVal_segIf_ne (by decide), findVal_segIf_ne (by decide),
    findVal_segIf_ne (by decide), findVal_segAlways_ne (by decide),
    findVal_segAlways_ne (by decide), findVal_segAlways_ne (by decide),
    findVal_segIf_last_ne (by decide)]

/-- The emitted `maintainer` value. -/
theorem dumpsFind_maintainer (reqs : List Req) (project : RootDependency) :
    findVal (SetupPyConverter.dumpsContent reqs project) "maintainer"
      = match project.authors with
        | _ :: b :: _ => some (.str b.name)
        | _ => none := by
  unfold SetupPyConverter.dumpsContent
  rw [findVal_segAlways_ne (by decide), findVal_segAlways_ne (by decide),
    findVal_segIf_ne (by decide), findVal_segIf_ne (by decide),
    findVal_segOpt_ne (by decide), findVal_segOpt_ne (by decide),
    findVal_segIf_ne (by decide), findVal_authors_maintainer]
  rw [findVal_segIf_ne (by decide), findVal_segIf_ne (by decide),
    findVal_segIf_ne (by decide), findVal_segIf_ne (by decide),
    findVal_segIf_ne (by decide), findVal_segAlways_ne (by decide),
    findVal_segAlways_ne (by decide), findVal_segAlways_ne (by decide),
    findVal_segIf_last_ne (by decide)]

/-- The emitted `maintainer_email` value. -/
theorem dumpsFind_maintainer_email (reqs : List Req) (project : RootDependency) :
    findVal (SetupPyConverter.dumpsContent reqs project) "maintainer_email"
      = match project.authors with
        | _ :: b :: _ => if pyTruthy b.mail then some (.str b.mail) else none
        | _ => none := by
  unfold SetupPyConverter.dumpsContent
  rw [findVal_segAlways_ne (by decide), findVal_segAlways_ne (by decide),
    findVal_segIf_ne (by decide), findVal_segIf_ne (by decide),
    findVal_segOpt_ne (by decide), findVal_segOpt_ne (by decide),
    findVal_segIf_ne (by decide), findVal_authors_maintainer_email]
  rw [findVal_segIf_ne (by decide), findVal_segIf_ne (by decide),
    findVal_segIf_ne (by decide), findVal_segIf_ne (by decide),
    findVal_segIf_ne (by decide), findVal_segAlways_ne (by decide),
    findVal_segAlways_ne (by decide), findVal_segAlways_ne (by decide),
    findVal_segIf_last_ne (by decide)]

/-- The emitted `license` value. -/
theorem dumpsFind_license (reqs : List Req) (project : RootDependency) :
    findVal (SetupPyConverter.dumpsContent reqs project) "license"
      = if pyTruthy project.license then some (.str project.license) else none := by
  unfold SetupPyConverter.dumpsContent
  rw [findVal_segAlways_ne (by decide), findVal_segAlways_ne (by decide),
    findVal_segIf_ne (by decide), findVal_segIf_ne (by decide),
    findVal_segOpt_ne (by decide), findVal_segOpt_ne (by decide),
    findVal_segIf_ne (by decide),
    findVal_authors_ne (by decide) (by decide) (by decide) (by decide),
    findVal_segIf_eq]
  rw [findVal_segIf_ne (by decide), findVal_segIf_ne (by decide),
    findVal_segIf_ne (by decide), findVal_segIf_ne (by decide),
    findVal_segAlways_ne (by decide), findVal_segAlways_ne (by decide),
    findVal_segAlways_ne (by decide), findVal_segIf_last_ne (by decide)]

/-- The emitted `keywords` value: a single space-joined string. -/
theorem dumpsFind_keywords (reqs : List Req) (project : RootDependency) :
    findVal (SetupPyConverter.dumpsContent reqs project) "keywords"
      = if !project.keywords.isEmpty
        then some (.str (List.intercalate (chars " ") project.keywords))
        else none := by
  unfold SetupPyConverter.dumpsContent
  rw [findVal_segAlways_ne (by decide), findVal_segAlways_ne (by decide),
    findVal_segIf_ne (by decide), findVal_segIf_ne (by decide),
    findVal_segOpt_ne (by decide), findVal_segOpt_ne (by decide),
    findVal_segIf_ne (by decide),
    findVal_authors_ne (by decide) (by decide) (by decide) (by decide),
    findVal_segIf_ne (by decide), findVal_segIf_eq]
  rw [findVal_segIf_ne (by decide), findVal_segIf_ne (by decide),
    findVal_segIf_ne (by decide), findVal_segAlways_ne (by decide),
    findVal_segAlways_ne (by decide), findVal_segAlways_ne (by decide),
    findVal_segIf_last_ne (by decide)]

/-- The emitted `classifiers` value. -/
theorem dumpsFind_classifiers (reqs : List Req) (project : RootDependency) :
    findVal (SetupPyConverter.dumpsContent reqs project) "classifiers"
      = if !project.classifiers.isEmpty
        then some (.strs project.classifiers)
        else none := by
  unfold SetupPyConverter.dumpsContent
  rw [findVal_segAlways_ne (by decide), findVal_segAlways_ne (by decide),
    findVal_segIf_ne (by decide), findVal_segIf_ne (by decide),
    findVal_segOpt_ne (by decide), findVal_segOpt_ne (by decide),
    findVal_segIf_ne (by decide),
    findVal_authors_ne (by decide) (by decide) (by decide) (by decide),
    findVal_segIf_ne (by decide), findVal_segIf_ne (by decide), findVal_segIf_eq]
  rw [findVal_segIf_ne (by decide), findVal_segIf_ne (by decide),
    findVal_segAlways_ne (by decide), findVal_segAlways_ne (by decide),
    findVal_segAlways_ne (by decide), findVal_segIf_last_ne (by decide)]

/-- The emitted `platforms` value. -/
theorem dumpsFind_platforms (reqs : List Req) (project : RootDependency) :
    findVal (SetupPyConverter.dumpsContent reqs project) "platforms"
      = if !project.platforms.isEmpty
        then some (.strs project.platforms)
        else none := by
  unfold SetupPyConverter.dumpsContent
  rw [findVal_segAlways_ne (by decide), findVal_segAlways_ne (by decide),
    findVal_segIf_ne (by decide), findVal_segIf_ne (by decide),
    findVal_segOpt_ne (by decide), findVal_segOpt_ne (by decide),
    findVal_segIf_ne (by decide),
    findVal_authors_ne (by decide) (by decide) (by decide) (by decide),
    findVal_segIf_ne (by decide), findVal_segIf_ne (by decide),
    findVal_segIf_ne (by decide), findVal_segIf_eq]
  rw [findVal_segIf_ne (by decide), findVal_segAlways_ne (by decide),
    findVal_segAlways_ne (by decide), findVal_segAlways_ne (by decide),
    findVal_segIf_last_ne (by decide)]

/-- The emitted `entry_points` value. -/
theorem dumpsFind_entry_points (reqs : List Req) (project : RootDependency) :
    findVal (SetupPyConverter.dumpsContent reqs project) "entry_points"
      = if !project.entrypoints.isEmpty
        then some (.strsDict (regroup (project.entrypoints.map
            (fun ep => (ep.group, EntryPoint.render ep)))))
        else none := by
  unfold SetupPyConverter.dumpsContent
  rw [findVal_segAlways_ne (by decide), findVal_segAlways_ne (by decide),
    findVal_segIf_ne (by decide), findVal_segIf_ne (by decide),
    findVal_segOpt_ne (by decide), findVal_segOpt_ne (by decide),
    findVal_segIf_ne (by decide),
    findVal_authors_ne (by decide) (by decide) (by decide) (by decide),
    findVal_segIf_ne (by decide), findVal_segIf_ne (by decide),
    findVal_segIf_ne (by decide), findVal_segIf_ne (by decide), findVal_segIf_eq]
  rw [findVal_segAlways_ne (by decide), findVal_segAlways_ne (by decide),
    findVal_segAlways_ne (by decide), findVal_segIf_last_ne (by decide)]

/-- The emitted `install_requires` value: the rendered strings of exactly
the requirements with no named-environment membership, in input order. -/
theorem dumpsFind_install_requires (reqs : List Req) (project : RootDependency) :
    findVal (SetupPyConverter.dumpsContent reqs project) "install_requires"
      = some (.strs ((reqs.filter (fun r => r.main_envs = [])).map
          SetupPyConverter._format_req)) := by
  unfold SetupPyConverter.dumpsContent
  rw [findVal_segAlways_ne (by decide), findVal_segAlways_ne (by decide),
    findVal_segIf_ne (by decide), findVal_segIf_ne (by decide),
    findVal_segOpt_ne (by decide), findVal_segOpt_ne (by decide),
    findVal_segIf_ne (by decide),
    findVal_authors_ne (by decide) (by decide) (by decide) (by decide),
    findVal_segIf_ne (by decide), findVal_segIf_ne (by decide),
    findVal_segIf_ne (by decide), findVal_segIf_ne (by decide),
    findVal_segIf_ne (by decide), findVal_segAlways_ne (by decide),
    findVal_segAlways_ne (by decide), findVal_segAlways_eq]

/-- The emitted `extras_require` value: present exactly when some
requirement has a named environment. -/
theorem dumpsFind_extras_require (reqs : List Req) (project : RootDependency) :
    findVal (SetupPyConverter.dumpsContent reqs project) "extras_require"
      = if !(buildExtras reqs).isEmpty
        then some (.strsDict (buildExtras reqs))
        else none := by
  unfold SetupPyConverter.dumpsContent
  rw [findVal_segAlways_ne (by decide), findVal_segAlways_ne (by decide),
    findVal_segIf_ne (by decide), findVal_segIf_ne (by decide),
    findVal_segOpt_ne (by decide), findVal_segOpt_ne (by decide),
    findVal_segIf_ne (by decide),
    findVal_authors_ne (by decide) (by decide) (by decide) (by decide),
    findVal_segIf_ne (by decide), findVal_segIf_ne (by decide),
    findVal_segIf_ne (by decide), findVal_segIf_ne (by decide),
    findVal_segIf_ne (by decide), findVal_segAlways_ne (by decide),
    findVal_segAlways_ne (by decide), findVal_segAlways_ne (by decide),
    findVal_segIf_last_eq]

/-! ## The extras mapping fold -/

/-- Lookup after a `defaultdict` append. -/
theorem lookupStr_addToGroup {β : Type} (m : List (Str × List β)) (k k' : Str) (v : β) :
    lookupStr (addToGroup m k v) k'
      = if k' = k then some (((lookupStr m k).getD []) ++ [v]) else lookupStr m k' := by
  induction m with
  | nil =>
    by_cases h : k' = k
    · subst h; simp [addToGroup, lookupStr]
    · have h2 : ¬ k = k' := fun hc => h hc.symm
      simp [addToGroup, lookupStr, h, h2]
  | cons p rest ih =>
    by_cases hp : p.1 = k
    · by_cases h : k' = k
      · subst h
        simp [addToGroup, hp, lookupStr]
      · have h2 : ¬ k = k' := fun hc => h hc.symm
        have h3 : ¬ p.1 = k' := by rw [hp]; exact h2
        simp [addToGroup, hp, lookupStr, h, h2, h3]
    · by_cases h : k' = k
      · subst h
        simp [addToGroup, hp, lookupStr, ih]
      · by_cases h4 : p.1 = k'
        · simp [addToGroup, hp, lookupStr, h4, ih, h]
        · simp [addToGroup, hp, lookupStr, h4, ih, h]

/-- Lookup after appending one rendering under every environment of a
duplicate-free list. -/
theorem lookupStr_foldEnvs (f : Str) :
    ∀ (envs : List Str), envs.Nodup → ∀ (m : List (Str × List Str)) (env : Str),
      lookupStr (envs.foldl (fun m e => addToGroup m e f) m) env
        = if env ∈ envs then some (((lookupStr m env).getD []) ++ [f])
          else lookupStr m env := by
  intro envs
  induction envs with
  | nil => intro _ m env; simp
  | cons e tl ih =>
    intro hnd m env
    have hnd' : tl.Nodup := (List.nodup_cons.1 hnd).2
    have hni : e ∉ tl := (List.nodup_cons.1 hnd).1
    simp only [List.foldl_cons]
    rw [ih hnd' (addToGroup m e f) env]
    by_cases hmem : env ∈ tl
    · have hne : env ≠ e := fun hc => hni (hc ▸ hmem)
      rw [if_pos hmem, if_pos (List.mem_cons_of_mem _ hmem),
        lookupStr_addToGroup, if_neg hne]
    · rw [if_neg hmem, lookupStr_addToGroup]
      by_cases he : env = e
      · subst he
        rw [if_pos rfl, if_pos (List.mem_cons_self env tl)]
      · rw [if_neg he, if_neg (by simp [he, hmem])]

/-- The one-requirement step of `buildExtras`. -/
def buildExtrasStep (m : List (Str × List Str)) (req : Req) : List (Str × List Str) :=
  if req.main_envs ≠ [] then
    req.main_envs.foldl (fun m env => addToGroup m env (SetupPyConverter._format_req req)) m
  else m

/-- `buildExtras` is the fold of its step function. -/
theorem buildExtras_eq_fold (reqs : List Req) :
    buildExtras reqs = reqs.foldl buildExtrasStep [] := by
  unfold buildExtras buildExtrasStep
  rfl

/-- Lookup in the extras mapping built over an accumulator. -/
theorem buildExtras_fold_lookup :
    ∀ (reqs : List Req), (∀ r ∈ reqs, r.main_envs.Nodup) →
      ∀ (m : List (Str × List Str)) (env : Str),
      lookupStr (reqs.foldl buildExtrasStep m) env
        = match lookupStr m env with
          | some l => some (l ++ ((reqs.filter (fun r => env ∈ r.main_envs)).map
              SetupPyConverter._format_req))
          | none =>
            if (reqs.filter (fun r => env ∈ r.main_envs)) = [] then none
            else some ((reqs.filter (fun r => env ∈ r.main_envs)).map
              SetupPyConverter._format_req) := by
  intro reqs
  induction reqs with
  | nil =>
    intro _ m env
    cases h : lookupStr m env <;> simp [h]
  | cons r rest ih =>
    intro hnd m env
    have hndr : r.main_envs.Nodup := hnd r (List.mem_cons_self _ _)
    have hnd' : ∀ x ∈ rest, x.main_envs.Nodup :=
      fun x hx => hnd x (List.mem_cons_of_mem _ hx)
    simp only [List.foldl_cons]
    rw [ih hnd' (buildExtrasStep m r) env]
    by_cases hmem : env ∈ r.main_envs
    · have hne : r.main_envs ≠ [] := by
        intro hc; rw [hc] at hmem; cases hmem
      have hstep : lookupStr (buildExtrasStep m r) env
          = some (((lookupStr m env).getD []) ++ [SetupPyConverter._format_req r]) := by
        unfold buildExtrasStep
        rw [if_pos hne, lookupStr_foldEnvs _ _ hndr, if_pos hmem]
      rw [hstep]
      rw [List.filter_cons_of_pos (by simpa using hmem), List.map_cons]
      cases hm : lookupStr m env <;> simp [hm]
    · have hstep : lookupStr (buildExtrasStep m r) env = lookupStr m env := by
        unfold buildExtrasStep
        by_cases hne : r.main_envs ≠ []
        · rw [if_pos hne, lookupStr_foldEnvs _ _ hndr, if_neg hmem]
        · rw [if_neg hne]
      rw [hstep]
      rw [List.filter_cons_of_neg (by simpa using hmem)]

/-- `addToGroup` never yields the empty mapping. -/
theorem addToGroup_ne_nil {β : Type} (m : List (Str × List β)) (k : Str) (v : β) :
    addToGroup m k v ≠ [] := by
  cases m with
  | nil => simp [addToGroup]
  | cons p rest =>
    simp only [addToGroup]
    by_cases h : p.1 = k <;> simp [h]

/-- Folding appends over a non-empty environment list yields a non-empty
mapping. -/
theorem foldEnvs_ne_nil (f : Str) :
    ∀ (envs : List Str) (m : List (Str × List Str)), envs ≠ [] →
      envs.foldl (fun m e => addToGroup m e f) m ≠ [] := by
  intro envs
  induction envs with
  | nil => intro m h; exact absurd rfl h
  | cons e tl ih =>
    intro m _
    simp only [List.foldl_cons]
    cases htl : tl with
    | nil => simpa [htl] using addToGroup_ne_nil m e f
    | cons x xs => exact htl ▸ ih (addToGroup m e f) (by simp [htl])

/-- The step preserves non-emptiness of the accumulator. -/
theorem buildExtrasStep_ne_nil (m : List (Str × List Str)) (r : Req) (h : m ≠ []) :
    buildExtrasStep m r ≠ [] := by
  unfold buildExtrasStep
  by_cases hne : r.main_envs ≠ []
  · rw [if_pos hne]
    exact foldEnvs_ne_nil _ _ m hne
  · rwa [if_neg hne]

/-- The extras fold stays non-empty once non-empty. -/
theorem buildExtras_fold_ne_nil :
    ∀ (reqs : List Req) (m : List (Str × List Str)), m ≠ [] →
      reqs.foldl buildExtrasStep m ≠ [] := by
  intro reqs
  induction reqs with
  | nil => intro m h; simpa
  | cons r rest ih =>
    intro m h
    simp only [List.foldl_cons]
    exact ih _ (buildExtrasStep_ne_nil m r h)

/-- The extras mapping is empty exactly when no requirement has a named
environment. -/
theorem buildExtras_eq_nil_iff (reqs : List Req) :
    buildExtras reqs = [] ↔ ∀ r ∈ reqs, r.main_envs = [] := by
  rw [buildExtras_eq_fold]
  induction reqs with
  | nil => simp
  | cons r rest ih =>
    simp only [List.foldl_cons]
    constructor
    · intro h
      by_cases hne : r.main_envs = []
      · have hstep : buildExtrasStep [] r = [] := by
          unfold buildExtrasStep
          simp [hne]
        rw [hstep] at h
        intro x hx
        rcases List.mem_cons.1 hx with hx | hx
        · subst hx; exact hne
        · exact ih.1 h x hx
      · exfalso
        have h1 : buildExtrasStep [] r ≠ [] := by
          unfold buildExtrasStep
          rw [if_pos hne]
          exact foldEnvs_ne_nil _ _ [] hne
        exact buildExtras_fold_ne_nil rest _ h1 h
    · intro h
      have hstep : buildExtrasStep [] r = [] := by
        unfold buildExtrasStep
        simp [h r (List.mem_cons_self _ _)]
      rw [hstep]
      exact ih.2 (fun x hx => h x (List.mem_cons_of_mem _ hx))

/-! ## C6: the install/extras partition of `dumps` -/

/-- C6: in the emitted content, `install_requires` holds the rendered
string of exactly the requirements whose `main_envs` is empty, in input
order; `extras_require` is emitted iff some requirement has a named
environment; and under each environment name it holds the renderings of
exactly the requirements belonging to that environment, each rendered
once, in input order (environment sets embedded as duplicate-free
lists). Hence every input requirement feeds exactly one of the two
keywords. -/
theorem c6_dumps_partition (reqs : List Req) (project : RootDependency)
    (hnd : ∀ r ∈ reqs, r.main_envs.Nodup) :
    findVal (SetupPyConverter.dumpsContent reqs project) "install_requires"
      = some (.strs ((reqs.filter (fun r => r.main_envs = [])).map
          SetupPyConverter._format_req))
    ∧ ((findVal (SetupPyConverter.dumpsContent reqs project) "extras_require" = none)
        ↔ ∀ r ∈ reqs, r.main_envs = [])
    ∧ (findVal (SetupPyConverter.dumpsContent reqs project) "extras_require"
        = if (buildExtras reqs).isEmpty then none
          else some (.strsDict (buildExtras reqs)))
    ∧ (∀ env, lookupStr (buildExtras reqs) env
        = if (reqs.filter (fun r => env ∈ r.main_envs)) = [] then none
          else some ((reqs.filter (fun r => env ∈ r.main_envs)).map
            SetupPyConverter._format_req)) := by
  refine ⟨dumpsFind_install_requires reqs project, ?_, ?_, ?_⟩
  · rw [dumpsFind_extras_require]
    rw [← buildExtras_eq_nil_iff]
    by_cases h : buildExtras reqs = [] <;> simp [h]
  · rw [dumpsFind_extras_require]
    by_cases h : buildExtras reqs = [] <;> simp [h]
  · intro env
    rw [buildExtras_eq_fold, buildExtras_fold_lookup reqs hnd [] env]
    simp [lookupStr]

/-- Witness for C6: one unconditional requirement and one `test`-extra
requirement partition into `install_requires` and `extras_require`. -/
theorem c6_dumps_partition_witness :
    findVal (SetupPyConverter.dumpsContent
        [⟨chars "flask", [], chars ">=1.0", [], []⟩,
         ⟨chars "pytest", [], [], [], [chars "test"]⟩]
        (loadedRoot (Distribution.ofKwargs {}) none []))
      "install_requires" = some (.strs [chars "flask>=1.0"])
    ∧ lookupStr (buildExtras
        [⟨chars "flask", [], chars ">=1.0", [], []⟩,
         ⟨chars "pytest", [], [], [], [chars "test"]⟩]) (chars "test")
      = some [chars "pytest"] := by
  have h := c6_dumps_partition
    [⟨chars "flask", [], chars ">=1.0", [], []⟩,
     ⟨chars "pytest", [], [], [], [chars "test"]⟩]
    (loadedRoot (Distribution.ofKwargs {}) none [])
    (by intro r hr; fin_cases hr <;> simp)
  constructor
  · rw [h.1]; rfl
  · rw [h.2.2.2 (chars "test")]; rfl

/-! ## List lemmas for the parse/format inversion -/

/-- `takeWhile` over a satisfied prefix followed by a failing head. -/
theorem takeWhile_append_sat {p : Char → Bool} :
    ∀ (n rest : Str), (∀ c ∈ n, p c = true) →
      (match rest with | [] => True | x :: _ => p x = false) →
      List.takeWhile p (n ++ rest) = n := by
  intro n
  induction n with
  | nil =>
    intro rest _ hrest
    cases rest with
    | nil => rfl
    | cons x xs => simpa [List.takeWhile_cons] using hrest
  | cons c n' ih =>
    intro rest hn hrest
    have hc : p c = true := hn c (by simp)
    simp only [List.cons_append, List.takeWhile_cons, hc, if_true]
    rw [ih rest (fun a ha => hn a (by simp [ha])) hrest]

/-- `dropWhile` over a satisfied prefix followed by a failing head. -/
theorem dropWhile_append_sat {p : Char → Bool} :
    ∀ (n rest : Str), (∀ c ∈ n, p c = true) →
      (match rest with | [] => True | x :: _ => p x = false) →
      List.dropWhile p (n ++ rest) = rest := by
  intro n
  induction n with
  | nil =>
    intro rest _ hrest
    cases rest with
    | nil => rfl
    | cons x xs => simp [List.dropWhile_cons, hrest]
  | cons c n' ih =>
    intro rest hn hrest
    have hc : p c = true := hn c (by simp)
    simp only [List.cons_append, List.dropWhile_cons, hc, if_true]
    exact ih rest (fun a ha => hn a (by simp [ha])) hrest

/-- `splitFirst` on a string free of the splitting character. -/
theorem splitFirst_no_occur (c : Char) :
    ∀ (xs : Str), c ∉ xs → splitFirst c xs = (xs, none) := by
  intro xs
  induction xs with
  | nil => intro _; rfl
  | cons x tl ih =>
    intro h
    have hx : ¬ x = c := fun hc => h (by simp [hc])
    simp only [splitFirst, if_neg hx, ih (fun hm => h (by simp [hm]))]

/-- `splitFirst` at the first genuine occurrence. -/
theorem splitFirst_first_occur (c : Char) :
    ∀ (xs ys : Str), c ∉ xs → splitFirst c (xs ++ c :: ys) = (xs, some ys) := by
  intro xs
  induction xs with
  | nil => intro ys _; simp [splitFirst]
  | cons x tl ih =>
    intro ys h
    have hx : ¬ x = c := fun hc => h (by simp [hc])
    simp only [List.cons_append, splitFirst, if_neg hx, List.append_eq,
      ih ys (fun hm => h (by simp [hm]))]

/-- The head part of `splitFirst` never contains the splitting
character. -/
theorem splitFirst_fst_no_occur (c : Char) :
    ∀ (xs : Str), c ∉ (splitFirst c xs).1 := by
  intro xs
  induction xs with
  | nil => simp [splitFirst]
  | cons x tl ih =>
    by_cases hx : x = c
    · simp [splitFirst, hx]
    · simp only [splitFirst, if_neg hx]
      intro hm
      rcases List.mem_cons.1 hm with hm | hm
      · exact hx hm.symm
      · exact ih hm

/-- `splitOnChar` never yields the empty list of pieces. -/
theorem splitOnChar_ne_nil (c : Char) : ∀ (s : Str), splitOnChar c s ≠ [] := by
  intro s
  induction s with
  | nil => simp [splitOnChar]
  | cons x tl ih =>
    simp only [splitOnChar]
    by_cases hx : x = c
    · simp [hx]
    · simp only [if_neg hx]
      cases h : splitOnChar c tl with
      | nil => simp
      | cons p ps => simp

/-- `splitOnChar` on a piece free of the splitting character. -/
theorem splitOnChar_no_occur (c : Char) :
    ∀ (s : Str), c ∉ s → splitOnChar c s = [s] := by
  intro s
  induction s with
  | nil => intro _; rfl
  | cons x tl ih =>
    intro h
    have hx : ¬ x = c := fun hc => h (by simp [hc])
    simp only [splitOnChar, if_neg hx, ih (fun hm => h (by simp [hm]))]

/-- `splitOnChar` peels a clean piece before a separator. -/
theorem splitOnChar_piece (c : Char) :
    ∀ (x rest : Str), c ∉ x →
      splitOnChar c (x ++ c :: rest) = x :: splitOnChar c rest := by
  intro x
  induction x with
  | nil => intro rest _; simp [splitOnChar]
  | cons a tl ih =>
    intro rest h
    have ha : ¬ a = c := fun hc => h (by simp [hc])
    simp only [List.cons_append, splitOnChar, if_neg ha,
      ih rest (fun hm => h (by simp [hm]))]
    cases hs : splitOnChar c (tl ++ c :: rest) with
    | nil => exact absurd hs (splitOnChar_ne_nil c _)
    | cons p ps =>
      have : tl :: splitOnChar c rest = p :: ps := by
        rw [← hs, ih rest (fun hm => h (by simp [hm]))]
      rw [List.cons.injEq] at this
      simp [this.1, this.2]

/-- Splitting the comma-joined extras recovers them. -/
theorem splitOnChar_intercalate (c : Char) :
    ∀ (xs : List Str), xs ≠ [] → (∀ x ∈ xs, c ∉ x) →
      splitOnChar c (List.intercalate [c] xs) = xs := by
  intro xs
  induction xs with
  | nil => intro h _; exact absurd rfl h
  | cons x tl ih =>
    intro _ hc
    cases tl with
    | nil =>
      simp only [List.intercalate, List.intersperse]
      simp only [List.flatten, List.append_nil]
      exact splitOnChar_no_occur c x (hc x (by simp))
    | cons y tl2 =>
      have hx : List.intercalate [c] (x :: y :: tl2)
          = x ++ c :: List.intercalate [c] (y :: tl2) := by
        simp [List.intercalate, List.intersperse]
      rw [hx, splitOnChar_piece c x _ (hc x (by simp)),
        ih (by simp) (fun a ha => hc a (by simp [ha]))]

/-! ## Well-formed requirement components -/

/-- `dropWhile` is idempotent. -/
theorem dropWhile_idem (p : Char → Bool) (l : Str) :
    (l.dropWhile p).dropWhile p = l.dropWhile p := by
  cases h : l.dropWhile p with
  | nil => rfl
  | cons x xs =>
    have hx : p x = false := dropWhile_head_false l h
    rw [List.dropWhile_cons_of_neg (by simp [hx])]

/-- `pyLstrip` is idempotent. -/
theorem pyLstrip_idem (l : Str) : pyLstrip (pyLstrip l) = pyLstrip l :=
  dropWhile_idem pyIsSpace l

/-- Characters of a `splitOnChar` piece come from the input and are never
the separator. -/
theorem mem_splitOnChar (c : Char) :
    ∀ (l : Str) (piece : Str), piece ∈ splitOnChar c l →
      ∀ a ∈ piece, a ∈ l ∧ a ≠ c := by
  intro l
  induction l with
  | nil =>
    intro piece hp a ha
    simp only [splitOnChar, List.mem_singleton] at hp
    subst hp
    cases ha
  | cons x tl ih =>
    intro piece hp a ha
    simp only [splitOnChar] at hp
    by_cases hx : x = c
    · rw [if_pos hx] at hp
      rcases List.mem_cons.1 hp with hp | hp
      · subst hp; cases ha
      · obtain ⟨hmem, hne⟩ := ih piece hp a ha
        exact ⟨by simp [hmem], hne⟩
    · rw [if_neg hx] at hp
      cases hs : splitOnChar c tl with
      | nil => exact absurd hs (splitOnChar_ne_nil c tl)
      | cons p ps =>
        rw [hs] at hp
        rcases List.mem_cons.1 hp with hp | hp
        · subst hp
          rcases List.mem_cons.1 ha with ha | ha
          · subst ha; exact ⟨by simp, hx⟩
          · obtain ⟨hmem, hne⟩ := ih p (by simp [hs]) a ha
            exact ⟨by simp [hmem], hne⟩
        · obtain ⟨hmem, hne⟩ := ih piece (by simp [hs, hp]) a ha
          exact ⟨by simp [hmem], hne⟩

/-- Characters of a comma-joined list come from its pieces or are the
separator. -/
theorem mem_intercalate_sep (c : Char) :
    ∀ (xs : List Str) (a : Char), a ∈ List.intercalate [c] xs →
      a = c ∨ ∃ x ∈ xs, a ∈ x := by
  intro xs
  induction xs with
  | nil => intro a ha; simp [List.intercalate, List.intersperse] at ha
  | cons x tl ih =>
    intro a ha
    cases tl with
    | nil =>
      simp only [List.intercalate, List.intersperse, List.flatten,
        List.append_nil] at ha
      exact Or.inr ⟨x, by simp, ha⟩
    | cons y tl2 =>
      have hx : List.intercalate [c] (x :: y :: tl2)
          = x ++ c :: List.intercalate [c] (y :: tl2) := by
        simp [List.intercalate, List.intersperse]
      rw [hx] at ha
      rcases List.mem_append.1 ha with ha | ha
      · exact Or.inr ⟨x, by simp, ha⟩
      · rcases List.mem_cons.1 ha with ha | ha
        · exact Or.inl ha
        · rcases ih a ha with h | ⟨z, hz, haz⟩
          · exact Or.inl h
          · exact Or.inr ⟨z, by simp [hz], haz⟩

/-- The shape invariants of parsed requirement components: a non-empty
all-identifier name; extras free of commas, closing brackets and
semicolons; a semicolon-free version constraint which, when no extras
bracket is present, does not begin like a name or a bracket. -/
def reqCoreWF (n : Str) (e : List Str) (v : Str) : Prop :=
  n ≠ []
  ∧ (∀ c ∈ n, identChar c = true)
  ∧ (∀ x ∈ e, ∀ c ∈ x, c ≠ ',' ∧ c ≠ ']' ∧ c ≠ ';')
  ∧ (∀ c ∈ v, c ≠ ';')
  ∧ (e = [] → match v with
      | [] => True
      | c :: _ => identChar c = false ∧ c ≠ '[')

/-- An identifier character is not a semicolon. -/
theorem identChar_ne_semicolon {c : Char} (h : identChar c = true) : c ≠ ';' := by
  intro hc
  subst hc
  simp [identChar] at h

/-- An identifier character is not whitespace. -/
theorem identChar_not_space {c : Char} (h : identChar c = true) :
    pyIsSpace c = false := by
  cases hs : pyIsSpace c with
  | false => rfl
  | true =>
    exfalso
    simp only [pyIsSpace, Bool.or_eq_true, decide_eq_true_eq] at hs
    rcases hs with ⟨⟨⟨⟨h1 | h1⟩ | h1⟩ | h1⟩ | h1⟩ | h1 <;>
      (subst h1; revert h; decide)

/-! ## Parsed components are well-formed -/

/-- `parseMarkers` output is left-stripped. -/
theorem parseMarkers_lstrip (o : Option Str) :
    pyLstrip (parseMarkers o) = parseMarkers o := by
  cases o with
  | none => rfl
  | some m => exact pyLstrip_idem m

/-- A successful `parseHead` on a semicolon-free head yields well-formed
components carrying exactly the given marker. -/
theorem parseHead_wf {head markers : Str} {r : Requirement}
    (hH : ∀ c ∈ head, c ≠ ';') (h : parseHead head markers = some r) :
    reqCoreWF r.name r.extras r.version ∧ r.markers = markers := by
  have hdropmem : ∀ c ∈ head.dropWhile identChar, c ∈ head :=
    fun c hc => (List.dropWhile_sublist identChar (l := head)).subset hc
  unfold parseHead at h
  split at h
  · exact absurd h (by simp)
  · rename_i hname
    split at h
    · rename_i r2 heq1
      have hr2mem : ∀ c ∈ r2, c ∈ head := by
        intro c hc
        exact hdropmem c (heq1 ▸ List.mem_cons_of_mem _ hc)
      split at h
      · rename_i version heq2
        simp only [Option.some.injEq] at h
        subst h
        refine ⟨⟨hname, ?_, ?_, ?_, ?_⟩, rfl⟩
        · intro c hc; exact List.mem_takeWhile_imp hc
        · intro x hx c hc
          obtain ⟨hin, hcomma⟩ := mem_splitOnChar ',' _ x hx c hc
          have hne_br : c ≠ ']' := by
            have := List.mem_takeWhile_imp hin
            simpa using this
          have hin_r2 : c ∈ r2 :=
            (List.takeWhile_sublist (fun c => decide ¬(c = ']'))).subset hin
          exact ⟨hcomma, hne_br, hH c (hr2mem c hin_r2)⟩
        · intro c hc
          have hin_r2 : c ∈ r2 := by
            have hmem : c ∈ r2.dropWhile (fun c => decide ¬(c = ']')) :=
              heq2 ▸ List.mem_cons_of_mem _ hc
            exact (List.dropWhile_sublist (fun c => decide ¬(c = ']'))).subset hmem
          exact hH c (hr2mem c hin_r2)
        · intro he
          exact absurd he (splitOnChar_ne_nil ',' _)
      · exact absurd h (by simp)
    · rename_i hnotbr
      simp only [Option.some.injEq] at h
      subst h
      refine ⟨⟨hname, ?_, ?_, ?_, ?_⟩, rfl⟩
      · intro c hc; exact List.mem_takeWhile_imp hc
      · intro x hx; cases hx
      · intro c hc; exact hH c (hdropmem c hc)
      · intro _
        cases hv : head.dropWhile identChar with
        | nil => trivial
        | cons c cs =>
          refine ⟨dropWhile_head_false head hv, ?_⟩
          intro hc
          subst hc
          exact hnotbr cs (hv ▸ rfl)

/-- A successful `parseReq` yields well-formed components and a
left-stripped marker. -/
theorem parseReq_wf {s : Str} {r : Requirement} (h : parseReq s = some r) :
    reqCoreWF r.name r.extras r.version ∧ pyLstrip r.markers = r.markers := by
  unfold parseReq at h
  have hH : ∀ c ∈ (splitFirst ';' s).1, c ≠ ';' := by
    intro c hc hcc
    subst hcc
    exact splitFirst_fst_no_occur ';' s hc
  obtain ⟨hcore, hm⟩ := parseHead_wf hH h
  refine ⟨hcore, ?_⟩
  rw [hm]
  exact parseMarkers_lstrip _

/-! ## The parse/format inversion -/

/-- `parseHead` recovers well-formed components from their rendering. -/
theorem parseHead_format (n : Str) (e : List Str) (v : Str)
    (hc : reqCoreWF n e v) (markers : Str) :
    parseHead (n ++ (reqExtrasPieceL e ++ v)) markers = some ⟨n, e, v, markers⟩ := by
  obtain ⟨hne, hid, hech, hvsemi, hnov⟩ := hc
  have hPev : (match reqExtrasPieceL e ++ v with
      | [] => True
      | c :: _ => identChar c = false) := by
    by_cases he : e = []
    · subst he
      simp only [reqExtrasPieceL, ne_eq, not_true_eq_false, if_false]
      cases hv : v with
      | nil => simp
      | cons c v' =>
        have := hnov rfl
        rw [hv] at this
        simpa using this.1
    · simp only [reqExtrasPieceL, ne_eq, he, not_false_eq_true, if_true]
      exact (by decide : identChar '\x5b' = false)
  have htake : (n ++ (reqExtrasPieceL e ++ v)).takeWhile identChar = n :=
    takeWhile_append_sat n _ hid hPev
  have hdrop : (n ++ (reqExtrasPieceL e ++ v)).dropWhile identChar
      = reqExtrasPieceL e ++ v :=
    dropWhile_append_sat n _ hid hPev
  unfold parseHead
  rw [htake, hdrop, if_neg hne]
  by_cases he : e = []
  · subst he
    simp only [reqExtrasPieceL, ne_eq, not_true_eq_false, if_false, List.nil_append]
    cases hv : v with
    | nil => simp
    | cons c v' =>
      have hch := hnov rfl
      rw [hv] at hch
      split
      · rename_i r2 heq
        rw [List.cons.injEq] at heq
        exact absurd heq.1 hch.2
      · rfl
  · have hPe : reqExtrasPieceL e
        = [ '['] ++ (List.intercalate (chars ",") e) ++ [ ']'] := by
      simp [reqExtrasPieceL, he]
    have hshape : reqExtrasPieceL e ++ v
        = '[' :: (List.intercalate (chars ",") e ++ (']' :: v)) := by
      rw [hPe]
      simp
    rw [hshape]
    have hinter : ∀ c ∈ List.intercalate (chars ",") e,
        (fun c => decide ¬(c = ']')) c = true := by
      intro c hcm
      rcases mem_intercalate_sep ',' e c hcm with hcm | ⟨x, hx, hcx⟩
      · subst hcm; decide
      · simp [(hech x hx c hcx).2.1]
    have htail : (match (']' :: v : Str) with
        | [] => True
        | x :: _ => (fun c => decide ¬(c = ']')) x = false) := by
      simp
    have htake2 : (List.intercalate (chars ",") e ++ (']' :: v)).takeWhile
        (fun c => decide ¬(c = ']')) = List.intercalate (chars ",") e :=
      takeWhile_append_sat _ _ hinter htail
    have hdrop2 : (List.intercalate (chars ",") e ++ (']' :: v)).dropWhile
        (fun c => decide ¬(c = ']')) = ']' :: v :=
      dropWhile_append_sat _ _ hinter htail
    split
    · rename_i r2 heq
      rw [List.cons.injEq] at heq
      obtain ⟨-, heq⟩ := heq
      subst heq
      split
      · rename_i version heq2
        rw [hdrop2, List.cons.injEq] at heq2
        obtain ⟨-, heq2⟩ := heq2
        subst heq2
        rw [htake2]
        rw [show List.intercalate (chars ",") e = List.intercalate [','] e from rfl,
          splitOnChar_intercalate ',' e he
            (fun x hx hcx => (hech x hx ',' hcx).1 rfl)]
      · rename_i hno
        exact absurd hdrop2 (hno v)
    · rename_i hno
      exact absurd rfl (hno (List.intercalate (chars ",") e ++ ']' :: v))

/-- The rendered head never contains a semicolon. -/
theorem format_head_no_semicolon (n : Str) (e : List Str) (v : Str)
    (hc : reqCoreWF n e v) : ';' ∉ n ++ (reqExtrasPieceL e ++ v) := by
  obtain ⟨hne, hid, hech, hvsemi, hnov⟩ := hc
  intro hmem
  rcases List.mem_append.1 hmem with h | h
  · exact identChar_ne_semicolon (hid _ h) rfl
  · rcases List.mem_append.1 h with h | h
    · by_cases he : e = []
      · subst he; simp [reqExtrasPieceL] at h
      · simp only [reqExtrasPieceL, ne_eq, he, not_false_eq_true, if_true] at h
        rcases List.mem_append.1 h with h | h
        · rcases List.mem_append.1 h with h | h
          · simp at h
          · rcases mem_intercalate_sep ',' e _ h with h | ⟨x, hx, hcx⟩
            · cases h
            · exact (hech x hx ';' hcx).2.2 rfl
        · simp at h
    · exact hvsemi ';' h rfl

/-- Re-parsing the rendering of well-formed components recovers exactly
those components. -/
theorem parse_format_inv (n : Str) (e : List Str) (v m : Str) (me : List Str)
    (hc : reqCoreWF n e v) (hm : pyLstrip m = m) :
    parseReq (SetupPyConverter._format_req ⟨n, e, v, m, me⟩) = some ⟨n, e, v, m⟩ := by
  rw [format_req_eq]
  dsimp only [reqExtrasPiece, reqMarkerPiece]
  by_cases hmne : m = []
  · subst hmne
    simp only [ne_eq, not_true_eq_false, if_false, List.append_nil]
    unfold parseReq
    rw [List.append_assoc,
      splitFirst_no_occur ';' _ (format_head_no_semicolon n e v hc)]
    exact parseHead_format n e v hc []
  · simp only [ne_eq, hmne, not_false_eq_true, if_true]
    have hshape : n ++ reqExtrasPieceL e ++ v ++ (chars "; " ++ m)
        = (n ++ (reqExtrasPieceL e ++ v)) ++ (';' :: (' ' :: m)) := by
      simp [chars]
    rw [hshape]
    unfold parseReq
    rw [splitFirst_first_occur ';' _ _ (format_head_no_semicolon n e v hc)]
    have hmk : parseMarkers (some (' ' :: m)) = m := by
      simp only [parseMarkers, pyLstrip, List.dropWhile_cons_of_pos (by decide :
        pyIsSpace ' ' = true)]
      exact hm
    rw [hmk]
    exact parseHead_format n e v hc m

/-! ## Grouping lemmas -/

/-- Flatten a grouped mapping back into key/value pairs. -/
def flattenG {β : Type} (M : List (Str × List β)) : List (Str × β) :=
  M.flatMap (fun g => g.2.map (fun t => (g.1, t)))

/-- The keys of a grouped mapping. -/
def keysOf {β : Type} (M : List (Str × List β)) : List Str := M.map Prod.fst

/-- A grouped mapping with pairwise-distinct keys and non-empty value
lists (the invariant of Python's `defaultdict(list)` grouping). -/
def NormalizedG {β : Type} (M : List (Str × List β)) : Prop :=
  (keysOf M).Nodup ∧ ∀ p ∈ M, p.2 ≠ []

/-- `keysOf` unfolds over a cons cell. -/
theorem keysOf_cons {β : Type} (p : Str × List β) (M : List (Str × List β)) :
    keysOf (p :: M) = p.1 :: keysOf M := rfl

/-- Keys after a `defaultdict` append. -/
theorem keysOf_addToGroup {β : Type} (m : List (Str × List β)) (k : Str) (v : β) :
    keysOf (addToGroup m k v)
      = if k ∈ keysOf m then keysOf m else keysOf m ++ [k] := by
  induction m with
  | nil => simp [addToGroup, keysOf]
  | cons p rest ih =>
    by_cases hp : p.1 = k
    · simp [addToGroup, keysOf_cons, keysOf, hp]
    · have hpk : ¬ k = p.1 := fun hc => hp hc.symm
      rw [show addToGroup (p :: rest) k v = p :: addToGroup rest k v from by
        simp [addToGroup, hp]]
      rw [keysOf_cons, keysOf_cons, ih]
      by_cases hm : k ∈ keysOf rest
      · rw [if_pos hm, if_pos (List.mem_cons_of_mem _ hm)]
      · rw [if_neg hm, if_neg (by simp [hpk, hm])]
        simp

/-- A `defaultdict` append preserves the grouping invariant. -/
theorem addToGroup_normalized {β : Type} (m : List (Str × List β)) (k : Str) (v : β)
    (h : NormalizedG m) : NormalizedG (addToGroup m k v) := by
  obtain ⟨hnd, hne⟩ := h
  constructor
  · rw [keysOf_addToGroup]
    by_cases hm : k ∈ keysOf m
    · simpa [hm]
    · simp only [hm, if_false]
      simpa [List.nodup_append] using ⟨hnd, hm⟩
  · intro p hp
    induction m with
    | nil =>
      simp only [addToGroup, List.mem_singleton] at hp
      subst hp
      simp
    | cons q rest ih =>
      simp only [addToGroup] at hp
      by_cases hq : q.1 = k
      · rw [if_pos hq] at hp
        rcases List.mem_cons.1 hp with hp | hp
        · subst hp; simp
        · exact hne p (List.mem_cons_of_mem _ hp)
      · rw [if_neg hq] at hp
        rcases List.mem_cons.1 hp with hp | hp
        · subst hp; exact hne p (List.mem_cons_self _ _)
        · exact ih ((List.nodup_cons.1 hnd).2)
            (fun x hx => hne x (List.mem_cons_of_mem _ hx)) hp

/-- The grouping fold preserves the invariant. -/
theorem foldl_addToGroup_normalized {β : Type} :
    ∀ (xs : List (Str × β)) (m : List (Str × List β)), NormalizedG m →
      NormalizedG (xs.foldl (fun m p => addToGroup m p.1 p.2) m) := by
  intro xs
  induction xs with
  | nil => intro m h; simpa
  | cons p rest ih =>
    intro m h
    simp only [List.foldl_cons]
    exact ih _ (addToGroup_normalized m p.1 p.2 h)

/-- `regroup` always yields a normalized mapping. -/
theorem regroup_normalized {β : Type} (xs : List (Str × β)) :
    NormalizedG (regroup xs) :=
  foldl_addToGroup_normalized xs [] ⟨List.nodup_nil, by simp⟩

/-- Appending under a fresh key skips a normalized prefix. -/
theorem addToGroup_append {β : Type} (P m : List (Str × List β)) (k : Str) (v : β)
    (h : k ∉ keysOf P) : addToGroup (P ++ m) k v = P ++ addToGroup m k v := by
  induction P with
  | nil => simp
  | cons p rest ih =>
    have hp : ¬ p.1 = k := by
      intro hc
      exact h (by simp [keysOf, hc])
    simp only [List.cons_append, addToGroup, if_neg hp]
    exact congrArg (fun t => p :: t)
      (ih (fun hm => h (by simp [keysOf] at hm ⊢; exact Or.inr hm)))

/-- Folding pairs whose keys avoid a normalized prefix skips it. -/
theorem foldl_addToGroup_append {β : Type} :
    ∀ (ys : List (Str × β)) (P m : List (Str × List β)),
      (∀ p ∈ ys, p.1 ∉ keysOf P) →
      ys.foldl (fun m p => addToGroup m p.1 p.2) (P ++ m)
        = P ++ ys.foldl (fun m p => addToGroup m p.1 p.2) m := by
  intro ys
  induction ys with
  | nil => intro P m _; simp
  | cons p rest ih =>
    intro P m h
    simp only [List.foldl_cons]
    rw [addToGroup_append P m p.1 p.2 (h p (List.mem_cons_self _ _)),
      ih P _ (fun x hx => h x (List.mem_cons_of_mem _ hx))]


/-- Folding one group's own pairs accumulates its values in order. -/
theorem foldl_addToGroup_same_key {β : Type} (k : Str) :
    ∀ (vs : List β) (acc : List β),
      (vs.map (fun t => (k, t))).foldl (fun m p => addToGroup m p.1 p.2) [(k, acc)]
        = [(k, acc ++ vs)] := by
  intro vs
  induction vs with
  | nil => intro acc; simp
  | cons v vs' ih =>
    intro acc
    simp only [List.map_cons, List.foldl_cons]
    rw [show addToGroup [(k, acc)] k v = [(k, acc ++ [v])] from by simp [addToGroup]]
    rw [ih (acc ++ [v])]
    simp

/-- Keys of a flattened mapping are among its keys. -/
theorem mem_keysOf_flattenG {β : Type} (M : List (Str × List β)) (p : Str × β)
    (h : p ∈ flattenG M) : p.1 ∈ keysOf M := by
  induction M with
  | nil => cases h
  | cons q rest ih =>
    simp only [flattenG, List.flatMap_cons] at h
    rcases List.mem_append.1 h with h | h
    · obtain ⟨t, _, ht⟩ := List.mem_map.1 h
      rw [← ht]
      simp [keysOf_cons]
    · rw [keysOf_cons]
      exact List.mem_cons_of_mem _ (ih h)

/-- Regrouping a flattened normalized mapping recovers it. -/
theorem regroup_flattenG {β : Type} :
    ∀ (M : List (Str × List β)), NormalizedG M → regroup (flattenG M) = M := by
  intro M
  induction M with
  | nil => intro _; rfl
  | cons q rest ih =>
    intro h
    obtain ⟨hnd, hne⟩ := h
    rw [keysOf_cons] at hnd
    have hqk : q.1 ∉ keysOf rest := (List.nodup_cons.1 hnd).1
    have hq2 : q.2 ≠ [] := hne q (List.mem_cons_self _ _)
    simp only [flattenG, List.flatMap_cons, regroup]
    rw [List.foldl_append]
    cases hv : q.2 with
    | nil => exact absurd hv hq2
    | cons v vs =>
      have hstep : (List.map (fun t => (q.1, t)) (v :: vs)).foldl
          (fun m p => addToGroup m p.1 p.2) [] = [(q.1, v :: vs)] := by
        simp only [List.map_cons, List.foldl_cons]
        rw [show addToGroup [] q.1 v = [(q.1, [v])] from rfl]
        rw [foldl_addToGroup_same_key q.1 vs [v]]
        simp
      rw [hstep]
      have hrest : (flattenG rest).foldl (fun m p => addToGroup m p.1 p.2)
          ([(q.1, v :: vs)] ++ [])
          = [(q.1, v :: vs)] ++ (flattenG rest).foldl
              (fun m p => addToGroup m p.1 p.2) [] := by
        apply foldl_addToGroup_append
        intro p hp
        intro hc
        simp only [keysOf, List.map_cons, List.map_nil, List.mem_singleton] at hc
        have := mem_keysOf_flattenG rest p hp
        rw [hc] at this
        exact hqk this
      simp only [List.append_nil] at hrest
      rw [show flattenG rest = (rest.flatMap fun g => g.2.map fun t => (g.1, t))
        from rfl] at hrest
      rw [hrest]
      have := ih ⟨(List.nodup_cons.1 hnd).2, fun x hx => hne x (List.mem_cons_of_mem _ hx)⟩
      simp only [regroup, flattenG] at this
      rw [this]
      rw [← hv]
      simp

/-- A member of a key-distinct mapping is found by lookup. -/
theorem lookupStr_of_mem_nodup {β : Type} :
    ∀ (M : List (Str × β)), (M.map Prod.fst).Nodup → ∀ p ∈ M,
      lookupStr M p.1 = some p.2 := by
  intro M
  induction M with
  | nil => intro _ p hp; cases hp
  | cons q rest ih =>
    intro hnd p hp
    rcases List.mem_cons.1 hp with hp | hp
    · subst hp
      simp [lookupStr]
    · have hne : ¬ q.1 = p.1 := by
        intro hc
        have : q.1 ∈ rest.map Prod.fst := by
          rw [hc]
          exact List.mem_map.2 ⟨p, hp, rfl⟩
        simp only [List.map_cons, List.nodup_cons] at hnd
        exact hnd.1 this
      simp only [lookupStr, if_neg hne]
      exact ih (by simp only [List.map_cons, List.nodup_cons] at hnd; exact hnd.2) p hp

/-- A found key is a member. -/
theorem lookupStr_some_mem {β : Type} :
    ∀ (M : List (Str × β)) (k : Str) (v : β), lookupStr M k = some v → (k, v) ∈ M := by
  intro M
  induction M with
  | nil => intro k v h; cases h
  | cons q rest ih =>
    intro k v h
    simp only [lookupStr] at h
    by_cases hq : q.1 = k
    · rw [if_pos hq] at h
      simp only [Option.some.injEq] at h
      have hqeq : (k, v) = q := by rw [← hq, ← h]
      rw [hqeq]
      exact List.mem_cons_self _ _
    · rw [if_neg hq] at h
      exact List.mem_cons_of_mem _ (ih k v h)

/-- The per-environment fold preserves the grouping invariant. -/
theorem foldEnvs_normalized (f : Str) :
    ∀ (envs : List Str) (m : List (Str × List Str)), NormalizedG m →
      NormalizedG (envs.foldl (fun m e => addToGroup m e f) m) := by
  intro envs
  induction envs with
  | nil => intro m h; simpa
  | cons e tl ih =>
    intro m h
    simp only [List.foldl_cons]
    exact ih _ (addToGroup_normalized m e f h)

/-- The extras mapping of `dumps` is normalized (distinct keys, non-empty
value lists). -/
theorem buildExtras_normalized (reqs : List Req) : NormalizedG (buildExtras reqs) := by
  rw [buildExtras_eq_fold]
  have : ∀ (rs : List Req) (m : List (Str × List Str)), NormalizedG m →
      NormalizedG (rs.foldl buildExtrasStep m) := by
    intro rs
    induction rs with
    | nil => intro m h; simpa
    | cons r rest ih =>
      intro m h
      simp only [List.foldl_cons]
      apply ih
      unfold buildExtrasStep
      by_cases hne : r.main_envs ≠ []
      · rw [if_pos hne]
        exact foldEnvs_normalized _ _ m h
      · rwa [if_neg hne]
  exact this reqs [] ⟨List.nodup_nil, by simp⟩

/-! ## Reading the reloaded keyword arguments -/

/-- The scalar read `_get` performs on an attribute value. -/
def pyGetStr : Option Str → Str
  | none => []
  | some v =>
    if !pyTruthy v then []
    else if v = chars "UNKNOWN" then []
    else pyStrip v

/-- The list read `_get_list` performs on an attribute value. -/
def pyGetList : Option PyStrs → List Str
  | none => []
  | some v =>
    if !v.truthy then []
    else v.iterate.filter (fun x => x ≠ chars "UNKNOWN" && pyTruthy (pyStrip x))

/-- `_get` over the kwargs-backed distribution reads the recognized
scalar fields. -/
theorem get_ofKwargs (kw : Kwargs) :
    SetupPyConverter._get (Distribution.ofKwargs kw) "name" = pyGetStr kw.name
    ∧ SetupPyConverter._get (Distribution.ofKwargs kw) "version" = pyGetStr kw.version
    ∧ SetupPyConverter._get (Distribution.ofKwargs kw) "description"
        = pyGetStr kw.description
    ∧ SetupPyConverter._get (Distribution.ofKwargs kw) "license" = pyGetStr kw.license
    ∧ SetupPyConverter._get (Distribution.ofKwargs kw) "python_requires"
        = pyGetStr kw.python_requires
    ∧ SetupPyConverter._get (Distribution.ofKwargs kw) "url" = pyGetStr kw.url
    ∧ SetupPyConverter._get (Distribution.ofKwargs kw) "download_url"
        = pyGetStr kw.download_url
    ∧ SetupPyConverter._get (Distribution.ofKwargs kw) "author" = pyGetStr kw.author
    ∧ SetupPyConverter._get (Distribution.ofKwargs kw) "author_email"
        = pyGetStr kw.author_email
    ∧ SetupPyConverter._get (Distribution.ofKwargs kw) "maintainer"
        = pyGetStr kw.maintainer
    ∧ SetupPyConverter._get (Distribution.ofKwargs kw) "maintainer_email"
        = pyGetStr kw.maintainer_email := by
  refine ⟨?_, ?_, ?_, ?_, ?_, ?_, ?_, ?_, ?_, ?_, ?_⟩ <;>
    · first
      | (cases kw.name <;> rfl)
      | (cases kw.version <;> rfl)
      | (cases kw.description <;> rfl)
      | (cases kw.license <;> rfl)
      | (cases kw.python_requires <;> rfl)
      | (cases kw.url <;> rfl)
      | (cases kw.download_url <;> rfl)
      | (cases kw.author <;> rfl)
      | (cases kw.author_email <;> rfl)
      | (cases kw.maintainer <;> rfl)
      | (cases kw.maintainer_email <;> rfl)

/-- `_get_list` over the kwargs-backed distribution reads the recognized
iterable fields. -/
theorem get_list_ofKwargs (kw : Kwargs) :
    SetupPyConverter._get_list (Distribution.ofKwargs kw) "keywords"
        = pyGetList kw.keywords
    ∧ SetupPyConverter._get_list (Distribution.ofKwargs kw) "classifiers"
        = pyGetList kw.classifiers
    ∧ SetupPyConverter._get_list (Distribution.ofKwargs kw) "platforms"
        = pyGetList kw.platforms
    ∧ SetupPyConverter._get_list (Distribution.ofKwargs kw) "install_requires"
        = pyGetList kw.install_requires := by
  refine ⟨?_, ?_, ?_, ?_⟩ <;>
    · first
      | (cases kw.keywords <;> rfl)
      | (cases kw.classifiers <;> rfl)
      | (cases kw.platforms <;> rfl)
      | (cases kw.install_requires <;> rfl)

/-- Stripping the empty string. -/
theorem pyStrip_nil : pyStrip [] = [] := rfl

/-- `_get` output is strip-stable. -/
theorem get_stripped (msg : Distribution) (n : String) :
    pyStrip (SetupPyConverter._get msg n) = SetupPyConverter._get msg n := by
  unfold SetupPyConverter._get
  cases hv : (match msg.metadata n with
    | some v => if pyTruthy v then some v else msg.attrs n
    | none => msg.attrs n) with
  | none => rfl
  | some v =>
    by_cases h1 : !pyTruthy v
    · simp [h1, pyStrip_nil]
    · by_cases h2 : v = chars "UNKNOWN"
      · simp [h1, h2, pyStrip_nil]
      · simp [h1, h2, pyStrip_idem]

/-- `pyGetStr` output is strip-stable. -/
theorem pyGetStr_stripped (o : Option Str) : pyStrip (pyGetStr o) = pyGetStr o := by
  cases o with
  | none => rfl
  | some v =>
    by_cases h1 : !pyTruthy v
    · simp [pyGetStr, h1, pyStrip_nil]
    · by_cases h2 : v = chars "UNKNOWN"
      · simp [pyGetStr, h1, h2, pyStrip_nil]
      · simp [pyGetStr, h1, h2, pyStrip_idem]

/-- `pyGetStr` is the identity on a stripped non-sentinel string. -/
theorem pyGetStr_of_normalized (s : Str) (hs : pyStrip s = s)
    (hu : s ≠ chars "UNKNOWN") : pyGetStr (some s) = s := by
  cases hse : s with
  | nil => rfl
  | cons c t =>
    rw [← hse]
    have ht : (!pyTruthy s) = false := by
      simp [pyTruthy, hse]
    simp [pyGetStr, ht, hu, hs]

/-! ## Dependencies: load shapes and reconstruction -/

/-- Modelled from the spec: the requirement view the resolver hands the
emitter for a loaded dependency — the same components, with `main_envs`
the named-environment memberships (the `envs` minus the implicit `main`
context). -/
def depToReq (d : Dependency) : Req :=
  ⟨d.name, d.extras, d.version, d.markers, d.envs.erase (chars "main")⟩

/-- Every install-section dependency carries well-formed parsed
components, a left-stripped marker, and the sole `main` env. -/
theorem loadInstallDeps_shape :
    ∀ (rs : List Str) (ds : List Dependency), loadInstallDeps rs = .ok ds →
      ∀ d ∈ ds, reqCoreWF d.name d.extras d.version
        ∧ pyLstrip d.markers = d.markers ∧ d.envs = [chars "main"] := by
  intro rs
  induction rs with
  | nil =>
    intro ds h d hd
    simp only [loadInstallDeps, Except.ok.injEq] at h
    subst h
    cases hd
  | cons r rest ih =>
    intro ds h d hd
    simp only [loadInstallDeps] at h
    cases hp : parseReq r with
    | none => rw [hp] at h; exact absurd h (by simp)
    | some req =>
      rw [hp] at h
      cases hrec : loadInstallDeps rest with
      | error e => rw [hrec] at h; exact absurd h (by simp)
      | ok ds' =>
        rw [hrec] at h
        simp only [Except.ok.injEq] at h
        subst h
        rcases List.mem_cons.1 hd with hd | hd
        · subst hd
          obtain ⟨hcore, hlst⟩ := parseReq_wf hp
          exact ⟨hcore, hlst, rfl⟩
        · exact ih ds' hrec d hd

/-- Every extras-section dependency carries well-formed parsed
components and an `envs` computed by the line-131 rule from a
colon-free base name. -/
theorem depsForExtraReqs_core (marker : Option Str) (envs : List Str) :
    ∀ (rs : List Str) (ds : List Dependency),
      depsForExtraReqs marker envs rs = .ok ds →
      ∀ d ∈ ds, reqCoreWF d.name d.extras d.version := by
  intro rs
  induction rs with
  | nil =>
    intro ds h d hd
    simp only [depsForExtraReqs, Except.ok.injEq] at h
    subst h
    cases hd
  | cons r rest ih =>
    intro ds h d hd
    simp only [depsForExtraReqs] at h
    cases hp : parseReq r with
    | none => rw [hp] at h; exact absurd h (by simp)
    | some req =>
      rw [hp] at h
      cases hrec : depsForExtraReqs marker envs rest with
      | error e => rw [hrec] at h; exact absurd h (by simp)
      | ok ds' =>
        rw [hrec] at h
        simp only [Except.ok.injEq] at h
        subst h
        rcases List.mem_append.1 hd with hd | hd
        · simp only [DependencyMaker.from_requirement, List.map_cons, List.map_nil,
            List.mem_singleton] at hd
          subst hd
          exact (parseReq_wf hp).1
        · exact ih ds' hrec d hd

/-- Rebuilding the install section from its dependencies' renderings. -/
theorem loadInstallDeps_of_formats :
    ∀ (ds : List Dependency),
      (∀ d ∈ ds, reqCoreWF d.name d.extras d.version
        ∧ pyLstrip d.markers = d.markers ∧ d.envs = [chars "main"]) →
      loadInstallDeps (ds.map (fun d => SetupPyConverter._format_req (depToReq d)))
        = .ok ds := by
  intro ds
  induction ds with
  | nil => intro _; rfl
  | cons d rest ih =>
    intro h
    obtain ⟨hcore, hlst, henvs⟩ := h d (List.mem_cons_self _ _)
    have hp : parseReq (SetupPyConverter._format_req (depToReq d))
        = some ⟨d.name, d.extras, d.version, d.markers⟩ :=
      parse_format_inv d.name d.extras d.version d.markers
        (d.envs.erase (chars "main")) hcore hlst
    simp only [List.map_cons, loadInstallDeps]
    rw [hp, ih (fun x hx => h x (List.mem_cons_of_mem _ hx))]
    have hd : (⟨d.name, d.extras, d.version, d.markers, [chars "main"]⟩
        : Dependency) = d := by
      rw [← henvs]
    simp [DependencyMaker.from_requirement, hd]

/-- Rebuilding one extras entry from its group's renderings. -/
theorem depsForExtraReqs_of_formats (envs : List Str) :
    ∀ (ds : List Dependency),
      (∀ d ∈ ds, reqCoreWF d.name d.extras d.version
        ∧ pyLstrip d.markers = d.markers ∧ d.envs = envs) →
      depsForExtraReqs none envs
        (ds.map (fun d => SetupPyConverter._format_req (depToReq d))) = .ok ds := by
  intro ds
  induction ds with
  | nil => intro _; rfl
  | cons d rest ih =>
    intro h
    obtain ⟨hcore, hlst, henvs⟩ := h d (List.mem_cons_self _ _)
    have hp : parseReq (SetupPyConverter._format_req (depToReq d))
        = some ⟨d.name, d.extras, d.version, d.markers⟩ :=
      parse_format_inv d.name d.extras d.version d.markers
        (d.envs.erase (chars "main")) hcore hlst
    simp only [List.map_cons, depsForExtraReqs]
    rw [hp, ih (fun x hx => h x (List.mem_cons_of_mem _ hx))]
    have hd : (⟨d.name, d.extras, d.version, d.markers, envs⟩
        : Dependency) = d := by
      rw [← henvs]
    simp [DependencyMaker.from_requirement, hd]

/-- Rebuilding one extras entry keyed by a colon-free environment name. -/
theorem depsForExtra_of_group (env : Str) (henv : ':' ∉ env)
    (ds : List Dependency)
    (h : ∀ d ∈ ds, reqCoreWF d.name d.extras d.version
      ∧ pyLstrip d.markers = d.markers ∧ d.envs = extraEnvs env) :
    depsForExtra env (ds.map (fun d => SetupPyConverter._format_req (depToReq d)))
      = .ok ds := by
  unfold depsForExtra
  rw [show _split_extra_and_marker env = (env, none) from by
    unfold _split_extra_and_marker
    exact splitFirst_no_occur ':' env henv]
  exact depsForExtraReqs_of_formats (extraEnvs env) ds h

/-- The extras loop over entries with known per-entry results. -/
theorem loadExtras_of_entries :
    ∀ (entries : List (Str × List Str)) (f : Str × List Str → List Dependency),
      (∀ p ∈ entries, depsForExtra p.1 p.2 = .ok (f p)) →
      loadExtras entries = .ok (entries.flatMap f) := by
  intro entries
  induction entries with
  | nil => intro f _; rfl
  | cons p rest ih =>
    intro f h
    obtain ⟨k, rs⟩ := p
    simp only [loadExtras, List.flatMap_cons]
    rw [h (k, rs) (List.mem_cons_self _ _),
      ih f (fun x hx => h x (List.mem_cons_of_mem _ hx))]

/-! ## Environment sets and filters -/

/-- The named environments of a line-131 `envs` set. -/
theorem erase_main_extraEnvs (b : Str) :
    (extraEnvs b).erase (chars "main")
      = if b = chars "main" then [] else [b] := by
  by_cases h1 : b = chars "dev"
  · subst h1
    decide
  · by_cases h2 : b = chars "main"
    · subst h2
      decide
    · unfold extraEnvs
      rw [if_neg h1, if_neg h2, if_neg h2]
      simp [List.erase_cons]

/-- Filtering a mapped list. -/
theorem filter_map_comm {α β : Type} (l : List α) (f : α → β) (p : β → Bool) :
    (l.map f).filter p = (l.filter (fun x => p (f x))).map f := by
  induction l with
  | nil => rfl
  | cons x rest ih =>
    simp only [List.map_cons, List.filter_cons]
    by_cases hx : p (f x) = true
    · simp [hx, ih]
    · simp only [Bool.not_eq_true] at hx
      simp [hx, ih]

/-- Filtering distributes over `flatMap`. -/
theorem filter_flatMap {α β : Type} (l : List α) (f : α → List β) (p : β → Bool) :
    (l.flatMap f).filter p = l.flatMap (fun a => (f a).filter p) := by
  induction l with
  | nil => rfl
  | cons x rest ih =>
    simp only [List.flatMap_cons, List.filter_append, ih]

/-- A `flatMap` of empty results is empty. -/
theorem flatMap_eq_nil_of {α β : Type} (l : List α) (f : α → List β)
    (h : ∀ a ∈ l, f a = []) : l.flatMap f = [] := by
  induction l with
  | nil => rfl
  | cons x rest ih =>
    simp only [List.flatMap_cons, h x (List.mem_cons_self _ _), List.nil_append]
    exact ih (fun a ha => h a (List.mem_cons_of_mem _ ha))

/-- Collapse an all-or-nothing `flatMap` over a key-distinct mapping. -/
theorem flatMap_single_key {β : Type} (g : Str × List Str → List β) (env : Str) :
    ∀ (M : List (Str × List Str)), (keysOf M).Nodup →
      (M.flatMap (fun p => if p.1 = env then g p else []))
        = (match lookupStr M env with
           | some v => g (env, v)
           | none => []) := by
  intro M
  induction M with
  | nil => intro _; rfl
  | cons q rest ih =>
    intro hnd
    rw [keysOf_cons] at hnd
    simp only [List.flatMap_cons, lookupStr]
    by_cases hq : q.1 = env
    · rw [if_pos hq, if_pos hq]
      have hrest : rest.flatMap (fun p => if p.1 = env then g p else []) = [] := by
        apply flatMap_eq_nil_of
        intro p hp
        have hne : ¬ p.1 = env := by
          intro hc
          have hmem : q.1 ∈ keysOf rest := by
            rw [hq, ← hc]
            exact List.mem_map.2 ⟨p, hp, rfl⟩
          exact (List.nodup_cons.1 hnd).1 hmem
        rw [if_neg hne]
      rw [hrest, List.append_nil]
      show g q = g (env, q.2)
      have hqe : (env, q.2) = q := by rw [← hq]
      rw [hqe]
    · rw [if_neg hq, if_neg hq, List.nil_append]
      exact ih (List.nodup_cons.1 hnd).2

/-! ## Rendered requirements survive the list filter -/

/-- `pyRstrip` keeps a list headed by a non-space character non-empty. -/
theorem pyRstrip_ne_nil_of_head {x : Char} (xs : Str) (h : pyIsSpace x = false) :
    pyRstrip (x :: xs) ≠ [] := by
  simp only [pyRstrip, h, Bool.and_false]
  simp

/-- A rendered requirement of a well-formed dependency strips to a
non-empty string. -/
theorem format_strip_truthy (d : Dependency)
    (hc : reqCoreWF d.name d.extras d.version) :
    pyTruthy (pyStrip (SetupPyConverter._format_req (depToReq d))) = true := by
  obtain ⟨hne, hid, -, -, -⟩ := hc
  rw [format_req_eq]
  cases hn : d.name with
  | nil => exact absurd hn hne
  | cons c t =>
    have hcid : identChar c = true := by
      apply hid
      rw [hn]
      exact List.mem_cons_self _ _
    have hcsp : pyIsSpace c = false := identChar_not_space hcid
    have hshape : (depToReq d).name ++ reqExtrasPiece (depToReq d)
        ++ (depToReq d).version ++ reqMarkerPiece (depToReq d)
        = c :: (t ++ reqExtrasPiece (depToReq d)
            ++ (depToReq d).version ++ reqMarkerPiece (depToReq d)) := by
      show d.name ++ _ ++ _ ++ _ = _
      rw [hn]
      simp
    rw [hshape]
    unfold pyStrip pyLstrip
    rw [List.dropWhile_cons_of_neg (by simp [hcsp])]
    have := pyRstrip_ne_nil_of_head
      (t ++ reqExtrasPiece (depToReq d) ++ (depToReq d).version
        ++ reqMarkerPiece (depToReq d)) hcsp
    simpa [pyTruthy] using this

/-- `pyGetList` on a list value whose entries all pass the filter. -/
theorem pyGetList_of_pass (xs : List Str)
    (h : ∀ x ∈ xs, (x ≠ chars "UNKNOWN" && pyTruthy (pyStrip x)) = true) :
    pyGetList (some (.list xs)) = xs := by
  cases xs with
  | nil => rfl
  | cons x rest =>
    simp only [pyGetList, PyStrs.truthy, PyStrs.iterate]
    rw [if_neg (by simp)]
    exact List.filter_eq_self.2 h

/-- Every `_get_list` output entry passes the filter. -/
theorem get_list_pred (msg : Distribution) (n : String) :
    ∀ x ∈ SetupPyConverter._get_list msg n,
      (x ≠ chars "UNKNOWN" && pyTruthy (pyStrip x)) = true := by
  intro x hx
  unfold SetupPyConverter._get_list at hx
  cases hv : msg.listAttrs n with
  | none => rw [hv] at hx; cases hx
  | some v =>
    rw [hv] at hx
    change x ∈ (if (!v.truthy) = true then ([] : List Str)
      else v.iterate.filter
        (fun x => x ≠ chars "UNKNOWN" && pyTruthy (pyStrip x))) at hx
    by_cases ht : (!v.truthy) = true
    · rw [if_pos ht] at hx; cases hx
    · rw [if_neg ht] at hx
      exact (List.mem_filter.1 hx).2

/-- Flattened reparsed entry points carry the mapping's pairs. -/
theorem map_pairext_flatMap (M : List (Str × List Str)) :
    (M.flatMap (fun g => g.2.map (fun t => EntryPoint.parse t g.1))).map
      (fun ep => (ep.group, EntryPoint.render ep)) = flattenG M := by
  induction M with
  | nil => rfl
  | cons q rest ih =>
    simp only [flattenG, List.flatMap_cons, List.map_append, List.map_map] at ih ⊢
    rw [ih]
    rfl

/-! ## The compared views of a loaded project -/

/-- The unconditional dependencies: those with no named-environment
membership. -/
def uncondDeps (root : RootDependency) : List Dependency :=
  root.dependencies.filter (fun d => (depToReq d).main_envs = [])

/-- The dependencies grouped under one extra environment name. -/
def extrasGroup (root : RootDependency) (env : Str) : List Dependency :=
  root.dependencies.filter (fun d => env ∈ (depToReq d).main_envs)

/-- The entry points grouped by group name, in first-appearance order. -/
def epGroups (root : RootDependency) : List (Str × List Str) :=
  regroup (root.entrypoints.map (fun ep => (ep.group, EntryPoint.render ep)))

/-! ## Projections of the assembled record -/

/-- The `name` field of the assembled record. -/
theorem loadedRoot_raw_name (info : Distribution) (r : Option Str)
    (ds : List Dependency) :
    (loadedRoot info r ds).raw_name = SetupPyConverter._get info "name" := rfl

/-- The `version` field of the assembled record. -/
theorem loadedRoot_version (info : Distribution) (r : Option Str)
    (ds : List Dependency) :
    (loadedRoot info r ds).version
      = if SetupPyConverter._get info "version" = [] then chars "0.0.0"
        else SetupPyConverter._get info "version" := rfl

/-- The `license` field of the assembled record. -/
theorem loadedRoot_license (info : Distribution) (r : Option Str)
    (ds : List Dependency) :
    (loadedRoot info r ds).license = SetupPyConverter._get info "license" := rfl

/-- The `classifiers` field of the assembled record. -/
theorem loadedRoot_classifiers (info : Distribution) (r : Option Str)
    (ds : List Dependency) :
    (loadedRoot info r ds).classifiers
      = SetupPyConverter._get_list info "classifiers" := rfl

/-- The `platforms` field of the assembled record. -/
theorem loadedRoot_platforms (info : Distribution) (r : Option Str)
    (ds : List Dependency) :
    (loadedRoot info r ds).platforms
      = SetupPyConverter._get_list info "platforms" := rfl

/-- The `authors` field of the assembled record. -/
theorem loadedRoot_authors (info : Distribution) (r : Option Str)
    (ds : List Dependency) :
    (loadedRoot info r ds).authors = loadAuthors info := rfl

/-- The unconditional-dependency view of an assembled record. -/
theorem uncondDeps_loadedRoot (info : Distribution) (r : Option Str)
    (ds : List Dependency) :
    uncondDeps (loadedRoot info r ds)
      = ds.filter (fun d => (depToReq d).main_envs = []) := rfl

/-- The per-environment dependency view of an assembled record. -/
theorem extrasGroup_loadedRoot (info : Distribution) (r : Option Str)
    (ds : List Dependency) (env : Str) :
    extrasGroup (loadedRoot info r ds) env
      = ds.filter (fun d => env ∈ (depToReq d).main_envs) := rfl

/-- The entry-point grouping view of an assembled record. -/
theorem epGroups_loadedRoot (info : Distribution) (r : Option Str)
    (ds : List Dependency) :
    epGroups (loadedRoot info r ds)
      = regroup ((loadEntrypoints info).map
          (fun ep => (ep.group, EntryPoint.render ep))) := rfl

/-- Forward direction of `assembleRoot`: both parsing passes succeeding
assembles the record. -/
theorem assembleRoot_of_ok (info : Distribution) (readme : Option Str)
    (instDeps exDeps : List Dependency)
    (h1 : loadInstallDeps (SetupPyConverter._get_list info "install_requires")
      = .ok instDeps)
    (h2 : loadExtras (info.extras_require.getD []) = .ok exDeps) :
    assembleRoot info readme = .ok (loadedRoot info readme (instDeps ++ exDeps)) := by
  unfold assembleRoot
  rw [h1, h2]

/-- Pointwise-equal functions give equal `flatMap`s. -/
theorem flatMap_congr_mem {α β : Type} (l : List α) (f g : α → List β)
    (h : ∀ a ∈ l, f a = g a) : l.flatMap f = l.flatMap g := by
  induction l with
  | nil => rfl
  | cons x rest ih =>
    simp only [List.flatMap_cons]
    rw [h x (List.mem_cons_self _ _), ih (fun a ha => h a (List.mem_cons_of_mem _ ha))]

/-- Unpacking membership in the unconditional view. -/
theorem mem_uncondDeps {root : RootDependency} {d : Dependency}
    (h : d ∈ uncondDeps root) :
    d ∈ root.dependencies ∧ (depToReq d).main_envs = [] := by
  unfold uncondDeps at h
  exact ⟨List.mem_of_mem_filter h, by simpa using List.of_mem_filter h⟩

/-- Unpacking membership in a per-environment view. -/
theorem mem_extrasGroup {root : RootDependency} {env : Str} {d : Dependency}
    (h : d ∈ extrasGroup root env) :
    d ∈ root.dependencies ∧ env ∈ (depToReq d).main_envs := by
  unfold extrasGroup at h
  exact ⟨List.mem_of_mem_filter h, by simpa using List.of_mem_filter h⟩

/-- Lookup in the emitted extras mapping, by environment name. -/
theorem buildExtras_lookup_eq (reqs : List Req)
    (hnd : ∀ r ∈ reqs, r.main_envs.Nodup) (env : Str) :
    lookupStr (buildExtras reqs) env
      = if (reqs.filter (fun r => env ∈ r.main_envs)) = [] then none
        else some ((reqs.filter (fun r => env ∈ r.main_envs)).map
          SetupPyConverter._format_req) := by
  rw [buildExtras_eq_fold, buildExtras_fold_lookup reqs hnd [] env]
  simp [lookupStr]

/-- The author list written out from its two scalar reads. -/
theorem loadAuthors_eq (info : Distribution) :
    loadAuthors info
      = (if SetupPyConverter._get info "author" ≠ []
         then [Author.mk (SetupPyConverter._get info "author")
                (SetupPyConverter._get info "author_email")] else [])
        ++ (if SetupPyConverter._get info "maintainer" ≠ []
            then [Author.mk (SetupPyConverter._get info "maintainer")
                   (SetupPyConverter._get info "maintainer_email")] else []) := rfl

/-- Every loaded author has a non-empty, strip-stable name and a
strip-stable mail (both read through `_get`). -/
theorem loadAuthors_shape (info : Distribution) :
    ∀ a ∈ loadAuthors info,
      a.name ≠ [] ∧ pyStrip a.name = a.name ∧ pyStrip a.mail = a.mail := by
  intro a ha
  rw [loadAuthors_eq] at ha
  rcases List.mem_append.1 ha with h | h
  · by_cases hc : SetupPyConverter._get info "author" ≠ []
    · rw [if_pos hc] at h
      rcases List.mem_singleton.1 h with he
      subst he
      exact ⟨hc, get_stripped _ _, get_stripped _ _⟩
    · rw [if_neg hc] at h
      cases h
  · by_cases hc : SetupPyConverter._get info "maintainer" ≠ []
    · rw [if_pos hc] at h
      rcases List.mem_singleton.1 h with he
      subst he
      exact ⟨hc, get_stripped _ _, get_stripped _ _⟩
    · rw [if_neg hc] at h
      cases h

/-- The entry-point read when the captured mapping is present. -/
theorem loadEntrypoints_some (info : Distribution) (M : List (Str × List Str))
    (h : info.entry_points = some M) :
    loadEntrypoints info
      = M.flatMap (fun g => g.2.map (fun t => EntryPoint.parse t g.1)) := by
  unfold loadEntrypoints
  rw [h, Option.getD_some]

/-- The entry-point read when the captured mapping is absent. -/
theorem loadEntrypoints_none (info : Distribution) (h : info.entry_points = none) :
    loadEntrypoints info = [] := by
  unfold loadEntrypoints
  rw [h]
  rfl

/-- Every dependency of a successfully loaded project carries well-formed
parsed components and an `envs` computed by the line-131 rule from some
colon-free base name. -/
theorem loadedDeps_wf (kw : Kwargs) (readme : Option Str) (root1 : RootDependency)
    (h1 : loadKwargs kw readme = .ok root1) :
    ∀ d ∈ root1.dependencies, reqCoreWF d.name d.extras d.version
      ∧ ∃ b, ':' ∉ b ∧ d.envs = extraEnvs b := by
  obtain ⟨instDeps, exDeps, hinst, hex, hrec⟩ := assembleRoot_ok h1
  intro d hd
  rw [hrec] at hd
  have hd' : d ∈ instDeps ++ exDeps := hd
  rcases List.mem_append.1 hd' with hm | hm
  · obtain ⟨hc, hl, he⟩ := loadInstallDeps_shape _ _ hinst d hm
    refine ⟨hc, chars "main", by decide, ?_⟩
    rw [he]
    rfl
  · obtain ⟨p, hp, ds', hds', hdm⟩ := loadExtras_member _ _ hex d hm
    unfold depsForExtra at hds'
    refine ⟨depsForExtraReqs_core _ _ _ _ hds' d hdm,
      (_split_extra_and_marker p.1).1, ?_,
      depsForExtraReqs_envs _ _ _ _ hds' d hdm⟩
    unfold _split_extra_and_marker
    exact splitFirst_fst_no_occur ':' p.1

/-- Reloading the emitted dependency sections reconstructs the
unconditional and extras-grouped dependency views of a loaded project. -/
theorem c1aux_deps (root1 : RootDependency)
    (hwf : ∀ d ∈ root1.dependencies, reqCoreWF d.name d.extras d.version
      ∧ ∃ b, ':' ∉ b ∧ d.envs = extraEnvs b)
    (hmark : ∀ d ∈ root1.dependencies, pyLstrip d.markers = d.markers)
    (hfmt : ∀ d ∈ root1.dependencies,
      SetupPyConverter._format_req (depToReq d) ≠ chars "UNKNOWN") :
    loadInstallDeps (pyGetList (some (.list
      (((root1.dependencies.map depToReq).filter (fun r => r.main_envs = [])).map
        SetupPyConverter._format_req)))) = .ok (uncondDeps root1)
    ∧ ∃ exDeps2,
        loadExtras (buildExtras (root1.dependencies.map depToReq)) = .ok exDeps2
        ∧ (uncondDeps root1 ++ exDeps2).filter
            (fun d => (depToReq d).main_envs = []) = uncondDeps root1
        ∧ ∀ env, (uncondDeps root1 ++ exDeps2).filter
            (fun d => env ∈ (depToReq d).main_envs) = extrasGroup root1 env := by
  have hfil : (root1.dependencies.map depToReq).filter (fun r => r.main_envs = [])
      = (uncondDeps root1).map depToReq := by
    rw [filter_map_comm]
    rfl
  have hgrp : ∀ env, (root1.dependencies.map depToReq).filter
      (fun r => env ∈ r.main_envs) = (extrasGroup root1 env).map depToReq := by
    intro env
    rw [filter_map_comm]
    rfl
  have huncond : ∀ d ∈ uncondDeps root1, reqCoreWF d.name d.extras d.version
      ∧ pyLstrip d.markers = d.markers ∧ d.envs = [chars "main"] := by
    intro d hd
    obtain ⟨hdm, hme⟩ := mem_uncondDeps hd
    obtain ⟨hcore, b, hcb, henv⟩ := hwf d hdm
    refine ⟨hcore, hmark d hdm, ?_⟩
    have he2 : (extraEnvs b).erase (chars "main") = [] := by
      have hx : (depToReq d).main_envs = (d.envs).erase (chars "main") := rfl
      rw [hx, henv] at hme
      exact hme
    rw [erase_main_extraEnvs] at he2
    by_cases hb : b = chars "main"
    · rw [henv, hb]
      decide
    · rw [if_neg hb] at he2
      simp at he2
  have hstrings : ((root1.dependencies.map depToReq).filter
        (fun r => r.main_envs = [])).map SetupPyConverter._format_req
      = (uncondDeps root1).map (fun d => SetupPyConverter._format_req (depToReq d)) := by
    rw [hfil, List.map_map]
    rfl
  have hpassI : ∀ x ∈ (uncondDeps root1).map
      (fun d => SetupPyConverter._format_req (depToReq d)),
      (x ≠ chars "UNKNOWN" && pyTruthy (pyStrip x)) = true := by
    intro x hx
    obtain ⟨d, hd, hxe⟩ := List.mem_map.1 hx
    subst hxe
    have hdm : d ∈ root1.dependencies := (mem_uncondDeps hd).1
    simp only [Bool.and_eq_true, decide_eq_true_eq]
    exact ⟨hfmt d hdm, format_strip_truthy d (hwf d hdm).1⟩
  have hinstall : loadInstallDeps (pyGetList (some (.list
      (((root1.dependencies.map depToReq).filter (fun r => r.main_envs = [])).map
        SetupPyConverter._format_req)))) = .ok (uncondDeps root1) := by
    rw [hstrings, pyGetList_of_pass _ hpassI]
    exact loadInstallDeps_of_formats _ huncond
  have hndenvs : ∀ r ∈ root1.dependencies.map depToReq, r.main_envs.Nodup := by
    intro r hr
    obtain ⟨d, hd, hde⟩ := List.mem_map.1 hr
    subst hde
    obtain ⟨-, b, -, henv⟩ := hwf d hd
    show ((d.envs).erase (chars "main")).Nodup
    rw [henv, erase_main_extraEnvs]
    by_cases hb : b = chars "main"
    · rw [if_pos hb]
      exact List.nodup_nil
    · rw [if_neg hb]
      exact List.nodup_singleton b
  have hgmem : ∀ k, ∀ d ∈ extrasGroup root1 k,
      (depToReq d).main_envs = [k] ∧ d.envs = extraEnvs k := by
    intro k d hd
    obtain ⟨hdm, hkm⟩ := mem_extrasGroup hd
    obtain ⟨-, b, -, henv⟩ := hwf d hdm
    have hme : (depToReq d).main_envs = if b = chars "main" then [] else [b] := by
      show (d.envs).erase (chars "main") = _
      rw [henv, erase_main_extraEnvs]
    rw [hme] at hkm
    by_cases hb : b = chars "main"
    · rw [if_pos hb] at hkm
      cases hkm
    · rw [if_neg hb] at hkm
      have hk : k = b := List.mem_singleton.1 hkm
      rw [hme, if_neg hb, henv, hk]
      exact ⟨rfl, rfl⟩
  have hperentry : ∀ p ∈ buildExtras (root1.dependencies.map depToReq),
      depsForExtra p.1 p.2 = .ok (extrasGroup root1 p.1) := by
    intro p hp
    have hnodK : ((buildExtras (root1.dependencies.map depToReq)).map
        Prod.fst).Nodup := (buildExtras_normalized _).1
    have hlkp := lookupStr_of_mem_nodup _ hnodK p hp
    rw [buildExtras_lookup_eq _ hndenvs p.1] at hlkp
    by_cases hfe : (root1.dependencies.map depToReq).filter
        (fun r => p.1 ∈ r.main_envs) = []
    · rw [if_pos hfe] at hlkp
      exact Option.noConfusion hlkp
    · rw [if_neg hfe] at hlkp
      have hp2 : p.2 = ((extrasGroup root1 p.1).map depToReq).map
          SetupPyConverter._format_req := by
        injection hlkp with h2
        rw [← h2, hgrp p.1]
      obtain ⟨r0, hr0⟩ := List.exists_mem_of_ne_nil _ hfe
      have hr0m : r0 ∈ root1.dependencies.map depToReq := List.mem_of_mem_filter hr0
      have hr0p : p.1 ∈ r0.main_envs := by simpa using List.of_mem_filter hr0
      obtain ⟨d0, hd0, hd0e⟩ := List.mem_map.1 hr0m
      obtain ⟨-, b, hcb, henv⟩ := hwf d0 hd0
      have hp1b : p.1 = b := by
        subst hd0e
        have hme : (depToReq d0).main_envs
            = if b = chars "main" then [] else [b] := by
          show (d0.envs).erase (chars "main") = _
          rw [henv, erase_main_extraEnvs]
        rw [hme] at hr0p
        by_cases hb : b = chars "main"
        · rw [if_pos hb] at hr0p
          cases hr0p
        · rw [if_neg hb] at hr0p
          exact List.mem_singleton.1 hr0p
      have hcolon : ':' ∉ p.1 := by
        rw [hp1b]
        exact hcb
      have hmemg : ∀ d ∈ extrasGroup root1 p.1,
          reqCoreWF d.name d.extras d.version
          ∧ pyLstrip d.markers = d.markers ∧ d.envs = extraEnvs p.1 := by
        intro d hd
        obtain ⟨hdm, -⟩ := mem_extrasGroup hd
        exact ⟨(hwf d hdm).1, hmark d hdm, (hgmem p.1 d hd).2⟩
      have hds := depsForExtra_of_group p.1 hcolon (extrasGroup root1 p.1) hmemg
      rw [hp2, List.map_map]
      exact hds
  have hexok : loadExtras (buildExtras (root1.dependencies.map depToReq))
      = .ok ((buildExtras (root1.dependencies.map depToReq)).flatMap
          (fun p => extrasGroup root1 p.1)) :=
    loadExtras_of_entries _ _ hperentry
  refine ⟨hinstall, _, hexok, ?_, ?_⟩
  · rw [List.filter_append]
    have h1 : (uncondDeps root1).filter (fun d => (depToReq d).main_envs = [])
        = uncondDeps root1 := by
      apply List.filter_eq_self.2
      intro d hd
      have := (mem_uncondDeps hd).2
      simpa
    have h2 : (((buildExtras (root1.dependencies.map depToReq)).flatMap
          (fun p => extrasGroup root1 p.1)).filter
        (fun d => (depToReq d).main_envs = [])) = [] := by
      apply List.filter_eq_nil_iff.2
      intro d hd
      obtain ⟨p, hp, hdg⟩ := List.mem_flatMap.1 hd
      have hme := (hgmem p.1 d hdg).1
      simp [hme]
    rw [h1, h2, List.append_nil]
  · intro env
    rw [List.filter_append]
    have h1 : (uncondDeps root1).filter
        (fun d => env ∈ (depToReq d).main_envs) = [] := by
      apply List.filter_eq_nil_iff.2
      intro d hd
      have hme := (mem_uncondDeps hd).2
      simp [hme]
    have h2 : (((buildExtras (root1.dependencies.map depToReq)).flatMap
          (fun p => extrasGroup root1 p.1)).filter
        (fun d => env ∈ (depToReq d).main_envs))
        = (buildExtras (root1.dependencies.map depToReq)).flatMap
            (fun p => if p.1 = env then extrasGroup root1 p.1 else []) := by
      rw [filter_flatMap]
      apply flatMap_congr_mem
      intro p hp
      by_cases hpe : p.1 = env
      · rw [if_pos hpe]
        apply List.filter_eq_self.2
        intro d hd
        have := (hgmem p.1 d hd).1
        simp [this, hpe]
      · rw [if_neg hpe]
        apply List.filter_eq_nil_iff.2
        intro d hd
        have := (hgmem p.1 d hd).1
        simp only [this, decide_eq_true_eq, List.mem_singleton]
        intro hc
        exact hpe hc.symm
    rw [h1, h2, List.nil_append]
    rw [flatMap_single_key (fun p => extrasGroup root1 p.1) env _
      (buildExtras_normalized _).1]
    rw [buildExtras_lookup_eq _ hndenvs env]
    by_cases hfe : (root1.dependencies.map depToReq).filter
        (fun r => env ∈ r.main_envs) = []
    · rw [if_pos hfe]
      have hgempty : (extrasGroup root1 env).map depToReq = [] := by
        rw [← hgrp env]
        exact hfe
      rw [List.map_eq_nil_iff] at hgempty
      rw [hgempty]
    · rw [if_neg hfe]

/-! ## Reading each field back from the emitted content -/

/-- Reloading the emitted `name`. -/
theorem reload_get_name (reqs : List Req) (p : RootDependency) :
    SetupPyConverter._get (Distribution.ofKwargs (kwargsOfContent
      (SetupPyConverter.dumpsContent reqs p))) "name"
      = pyGetStr (some p.raw_name) := by
  rw [(get_ofKwargs _).1]
  show pyGetStr (asStr (findVal (SetupPyConverter.dumpsContent reqs p) "name")) = _
  rw [dumpsFind_name]
  rfl

/-- Reloading the emitted `version`. -/
theorem reload_get_version (reqs : List Req) (p : RootDependency) :
    SetupPyConverter._get (Distribution.ofKwargs (kwargsOfContent
      (SetupPyConverter.dumpsContent reqs p))) "version"
      = pyGetStr (some p.version) := by
  rw [(get_ofKwargs _).2.1]
  show pyGetStr (asStr (findVal (SetupPyConverter.dumpsContent reqs p) "version")) = _
  rw [dumpsFind_version]
  rfl

/-- Reloading the emitted `license`. -/
theorem reload_get_license (reqs : List Req) (p : RootDependency) :
    SetupPyConverter._get (Distribution.ofKwargs (kwargsOfContent
      (SetupPyConverter.dumpsContent reqs p))) "license"
      = if pyTruthy p.license then pyGetStr (some p.license) else [] := by
  rw [(get_ofKwargs _).2.2.2.1]
  show pyGetStr (asStr (findVal (SetupPyConverter.dumpsContent reqs p) "license")) = _
  rw [dumpsFind_license]
  by_cases h : pyTruthy p.license = true
  · rw [if_pos h, if_pos h]
    rfl
  · rw [if_neg h, if_neg h]
    rfl

/-- Reloading the emitted `author` when an author exists. -/
theorem reload_get_author_cons (reqs : List Req) (p : RootDependency)
    (a : Author) (rest : List Author) (hA : p.authors = a :: rest) :
    SetupPyConverter._get (Distribution.ofKwargs (kwargsOfContent
      (SetupPyConverter.dumpsContent reqs p))) "author"
      = pyGetStr (some a.name) := by
  rw [(get_ofKwargs _).2.2.2.2.2.2.2.1]
  show pyGetStr (asStr (findVal (SetupPyConverter.dumpsContent reqs p) "author")) = _
  rw [dumpsFind_author, hA]
  rfl

/-- Reloading the emitted `author` when no author exists. -/
theorem reload_get_author_nil (reqs : List Req) (p : RootDependency)
    (hA : p.authors = []) :
    SetupPyConverter._get (Distribution.ofKwargs (kwargsOfContent
      (SetupPyConverter.dumpsContent reqs p))) "author" = [] := by
  rw [(get_ofKwargs _).2.2.2.2.2.2.2.1]
  show pyGetStr (asStr (findVal (SetupPyConverter.dumpsContent reqs p) "author")) = _
  rw [dumpsFind_author, hA]
  rfl

/-- Reloading the emitted `author_email` when an author exists. -/
theorem reload_get_author_email_cons (reqs : List Req) (p : RootDependency)
    (a : Author) (rest : List Author) (hA : p.authors = a :: rest) :
    SetupPyConverter._get (Distribution.ofKwargs (kwargsOfContent
      (SetupPyConverter.dumpsContent reqs p))) "author_email"
      = if pyTruthy a.mail then pyGetStr (some a.mail) else [] := by
  rw [(get_ofKwargs _).2.2.2.2.2.2.2.2.1]
  show pyGetStr (asStr (findVal (SetupPyConverter.dumpsContent reqs p)
    "author_email")) = _
  rw [dumpsFind_author_email, hA]
  show pyGetStr (asStr (if pyTruthy a.mail then some (.str a.mail) else none)) = _
  by_cases h : pyTruthy a.mail = true
  · rw [if_pos h, if_pos h]
    rfl
  · rw [if_neg h, if_neg h]
    rfl

/-- Reloading the emitted `maintainer` when no author exists. -/
theorem reload_get_maintainer_nil (reqs : List Req) (p : RootDependency)
    (hA : p.authors = []) :
    SetupPyConverter._get (Distribution.ofKwargs (kwargsOfContent
      (SetupPyConverter.dumpsContent reqs p))) "maintainer" = [] := by
  rw [(get_ofKwargs _).2.2.2.2.2.2.2.2.2.1]
  show pyGetStr (asStr (findVal (SetupPyConverter.dumpsContent reqs p)
    "maintainer")) = _
  rw [dumpsFind_maintainer, hA]
  rfl

/-- Reloading the emitted `classifiers`. -/
theorem reload_get_list_classifiers (reqs : List Req) (p : RootDependency) :
    SetupPyConverter._get_list (Distribution.ofKwargs (kwargsOfContent
      (SetupPyConverter.dumpsContent reqs p))) "classifiers"
      = match p.classifiers with
        | [] => []
        | c :: t => pyGetList (some (.list (c :: t))) := by
  rw [(get_list_ofKwargs _).2.1]
  show pyGetList (asStrs (findVal (SetupPyConverter.dumpsContent reqs p)
    "classifiers")) = _
  rw [dumpsFind_classifiers]
  cases p.classifiers <;> rfl

/-- Reloading the emitted `platforms`. -/
theorem reload_get_list_platforms (reqs : List Req) (p : RootDependency) :
    SetupPyConverter._get_list (Distribution.ofKwargs (kwargsOfContent
      (SetupPyConverter.dumpsContent reqs p))) "platforms"
      = match p.platforms with
        | [] => []
        | c :: t => pyGetList (some (.list (c :: t))) := by
  rw [(get_list_ofKwargs _).2.2.1]
  show pyGetList (asStrs (findVal (SetupPyConverter.dumpsContent reqs p)
    "platforms")) = _
  rw [dumpsFind_platforms]
  cases p.platforms <;> rfl

/-- Reloading the emitted `install_requires`. -/
theorem reload_install (reqs : List Req) (p : RootDependency) :
    SetupPyConverter._get_list (Distribution.ofKwargs (kwargsOfContent
      (SetupPyConverter.dumpsContent reqs p))) "install_requires"
      = pyGetList (some (.list ((reqs.filter (fun r => r.main_envs = [])).map
          SetupPyConverter._format_req))) := by
  rw [(get_list_ofKwargs _).2.2.2]
  show pyGetList (asStrs (findVal (SetupPyConverter.dumpsContent reqs p)
    "install_requires")) = _
  rw [dumpsFind_install_requires]
  rfl

/-- Reloading the emitted `extras_require`. -/
theorem reload_extras (reqs : List Req) (p : RootDependency) :
    (Distribution.ofKwargs (kwargsOfContent
      (SetupPyConverter.dumpsContent reqs p))).extras_require.getD []
      = buildExtras reqs := by
  show (asStrsDict (findVal (SetupPyConverter.dumpsContent reqs p)
    "extras_require")).getD [] = _
  rw [dumpsFind_extras_require]
  cases buildExtras reqs <;> rfl

/-- Reloading the emitted `entry_points` when entry points exist. -/
theorem reload_entry_points_cons (reqs : List Req) (p : RootDependency)
    (e : EntryPoint) (t : List EntryPoint) (hE : p.entrypoints = e :: t) :
    (Distribution.ofKwargs (kwargsOfContent
      (SetupPyConverter.dumpsContent reqs p))).entry_points
      = some (regroup (p.entrypoints.map
          (fun ep => (ep.group, EntryPoint.render ep)))) := by
  show asStrsDict (findVal (SetupPyConverter.dumpsContent reqs p)
    "entry_points") = _
  rw [dumpsFind_entry_points, hE]
  rfl

/-- Reloading the emitted `entry_points` when none exist. -/
theorem reload_entry_points_nil (reqs : List Req) (p : RootDependency)
    (hE : p.entrypoints = []) :
    (Distribution.ofKwargs (kwargsOfContent
      (SetupPyConverter.dumpsContent reqs p))).entry_points = none := by
  show asStrsDict (findVal (SetupPyConverter.dumpsContent reqs p)
    "entry_points") = _
  rw [dumpsFind_entry_points, hE]
  rfl

/-- C1 (amended): for a successfully loaded project whose scalar fields
and rendered requirements avoid the `UNKNOWN` sentinel and whose markers
are left-stripped, dumping and loading again reproduces the name,
version, license, classifiers, platforms, first author, entry points
grouped by group, unconditional dependencies and extras-grouped
dependencies. (As stated the claim is false: the `keywords` list does
not survive the round trip, see the counterexample.) -/
theorem c1_roundtrip_amended (kw : Kwargs) (readme readme2 : Option Str)
    (root1 : RootDependency)
    (h1 : loadKwargs kw readme = .ok root1)
    (hname : root1.raw_name ≠ chars "UNKNOWN")
    (hver : root1.version ≠ chars "UNKNOWN")
    (hlic : root1.license ≠ chars "UNKNOWN")
    (hauth : ∀ a ∈ root1.authors,
      a.name ≠ chars "UNKNOWN" ∧ a.mail ≠ chars "UNKNOWN")
    (hmark : ∀ d ∈ root1.dependencies, pyLstrip d.markers = d.markers)
    (hfmt : ∀ d ∈ root1.dependencies,
      SetupPyConverter._format_req (depToReq d) ≠ chars "UNKNOWN") :
    ∃ root2,
      loadKwargs (kwargsOfContent (SetupPyConverter.dumpsContent
          (root1.dependencies.map depToReq) root1)) readme2 = .ok root2
      ∧ root2.raw_name = root1.raw_name
      ∧ root2.version = root1.version
      ∧ root2.license = root1.license
      ∧ root2.classifiers = root1.classifiers
      ∧ root2.platforms = root1.platforms
      ∧ root2.authors.head? = root1.authors.head?
      ∧ epGroups root2 = epGroups root1
      ∧ uncondDeps root2 = uncondDeps root1
      ∧ (∀ env, extrasGroup root2 env = extrasGroup root1 env) := by
  obtain ⟨instDeps, exDeps, hinst, hex, hrec⟩ := assembleRoot_ok h1
  have hwf := loadedDeps_wf kw readme root1 h1
  obtain ⟨hinstall2, exDeps2, hexok2, hfilU, hfilG⟩ := c1aux_deps root1 hwf hmark hfmt
  have hN1 : root1.raw_name
      = SetupPyConverter._get (Distribution.ofKwargs kw) "name" := by
    rw [hrec]
    rfl
  have hV1 : root1.version
      = (if SetupPyConverter._get (Distribution.ofKwargs kw) "version" = []
         then chars "0.0.0"
         else SetupPyConverter._get (Distribution.ofKwargs kw) "version") := by
    rw [hrec]
    rfl
  have hL1 : root1.license
      = SetupPyConverter._get (Distribution.ofKwargs kw) "license" := by
    rw [hrec]
    rfl
  have hC1 : root1.classifiers
      = SetupPyConverter._get_list (Distribution.ofKwargs kw) "classifiers" := by
    rw [hrec]
    rfl
  have hP1 : root1.platforms
      = SetupPyConverter._get_list (Distribution.ofKwargs kw) "platforms" := by
    rw [hrec]
    rfl
  have hA1 : root1.authors = loadAuthors (Distribution.ofKwargs kw) := by
    rw [hrec]
    rfl
  have hnameS : pyStrip root1.raw_name = root1.raw_name := by
    rw [hN1]
    exact get_stripped _ _
  have hverS : pyStrip root1.version = root1.version := by
    rw [hV1]
    by_cases hv : SetupPyConverter._get (Distribution.ofKwargs kw) "version" = []
    · rw [if_pos hv]
      decide
    · rw [if_neg hv]
      exact get_stripped _ _
  have hverNE : root1.version ≠ [] := by
    rw [hV1]
    by_cases hv : SetupPyConverter._get (Distribution.ofKwargs kw) "version" = []
    · rw [if_pos hv]
      decide
    · rw [if_neg hv]
      exact hv
  have hlicS : pyStrip root1.license = root1.license := by
    rw [hL1]
    exact get_stripped _ _
  have hload2 : loadKwargs (kwargsOfContent (SetupPyConverter.dumpsContent
      (root1.dependencies.map depToReq) root1)) readme2
      = .ok (loadedRoot (Distribution.ofKwargs (kwargsOfContent
          (SetupPyConverter.dumpsContent (root1.dependencies.map depToReq) root1)))
          readme2 (uncondDeps root1 ++ exDeps2)) := by
    unfold loadKwargs
    apply assembleRoot_of_ok
    · rw [reload_install]
      exact hinstall2
    · rw [reload_extras]
      exact hexok2
  refine ⟨_, hload2, ?_, ?_, ?_, ?_, ?_, ?_, ?_, ?_, ?_⟩
  · rw [loadedRoot_raw_name, reload_get_name]
    exact pyGetStr_of_normalized _ hnameS hname
  · rw [loadedRoot_version, reload_get_version,
      pyGetStr_of_normalized _ hverS hver, if_neg hverNE]
  · rw [loadedRoot_license, reload_get_license]
    by_cases hl : pyTruthy root1.license = true
    · rw [if_pos hl]
      exact pyGetStr_of_normalized _ hlicS hlic
    · rw [if_neg hl]
      cases hc : root1.license with
      | nil => rfl
      | cons c t =>
        rw [hc] at hl
        exact absurd rfl hl
  · rw [loadedRoot_classifiers, reload_get_list_classifiers]
    cases hc : root1.classifiers with
    | nil => rfl
    | cons c t =>
      show pyGetList (some (.list (c :: t))) = c :: t
      apply pyGetList_of_pass
      intro x hx
      have hc' : SetupPyConverter._get_list (Distribution.ofKwargs kw) "classifiers"
          = c :: t := hC1.symm.trans hc
      rw [← hc'] at hx
      exact get_list_pred _ _ x hx
  · rw [loadedRoot_platforms, reload_get_list_platforms]
    cases hc : root1.platforms with
    | nil => rfl
    | cons c t =>
      show pyGetList (some (.list (c :: t))) = c :: t
      apply pyGetList_of_pass
      intro x hx
      have hc' : SetupPyConverter._get_list (Distribution.ofKwargs kw) "platforms"
          = c :: t := hP1.symm.trans hc
      rw [← hc'] at hx
      exact get_list_pred _ _ x hx
  · rw [loadedRoot_authors]
    cases hA : root1.authors with
    | nil =>
      rw [loadAuthors_eq, reload_get_author_nil _ _ hA,
        reload_get_maintainer_nil _ _ hA]
      simp
    | cons a rest =>
      have ham : a ∈ root1.authors := by
        rw [hA]
        exact List.mem_cons_self _ _
      obtain ⟨hA1ne, hA1s, hA1ms⟩ :=
        loadAuthors_shape (Distribution.ofKwargs kw) a (by rw [← hA1]; exact ham)
      obtain ⟨hAu, hAm⟩ := hauth a ham
      have hmail : (if pyTruthy a.mail then pyGetStr (some a.mail) else [])
          = a.mail := by
        by_cases hm : pyTruthy a.mail = true
        · rw [if_pos hm]
          exact pyGetStr_of_normalized _ hA1ms hAm
        · rw [if_neg hm]
          cases hmc : a.mail with
          | nil => rfl
          | cons c t =>
            rw [hmc] at hm
            exact absurd rfl hm
      rw [loadAuthors_eq, reload_get_author_cons _ _ a rest hA,
        reload_get_author_email_cons _ _ a rest hA,
        pyGetStr_of_normalized _ hA1s hAu, hmail, if_pos hA1ne]
      rfl
  · rw [epGroups_loadedRoot]
    cases hE : root1.entrypoints with
    | nil =>
      rw [loadEntrypoints_none _ (reload_entry_points_nil _ _ hE)]
      unfold epGroups
      rw [hE]
    | cons e t =>
      rw [loadEntrypoints_some _ _ (reload_entry_points_cons _ _ e t hE),
        map_pairext_flatMap]
      unfold epGroups
      exact regroup_flattenG _ (regroup_normalized _)
  · rw [uncondDeps_loadedRoot]
    exact hfilU
  · intro env
    rw [extrasGroup_loadedRoot]
    exact hfilG env

/-- A one-keyword setup call refuting the round trip as claimed. -/
def c1CounterKwargs : Kwargs :=
  { name := some (chars "pkg"), keywords := some (.list [chars "deps"]) }

/-- Counterexample to C1 as stated: the loaded `keywords` list `['deps']`
is dumped as a single space-joined string, which the second load's
element-wise read iterates character by character — the keywords are not
reproduced. -/
theorem c1_counterexample :
    ∃ root1 root2,
      loadKwargs c1CounterKwargs none = .ok root1
      ∧ loadKwargs (kwargsOfContent (SetupPyConverter.dumpsContent
          (root1.dependencies.map depToReq) root1)) none = .ok root2
      ∧ root1.keywords = [chars "deps"]
      ∧ root2.keywords = [['d'], ['e'], ['p'], ['s']]
      ∧ root2.keywords ≠ root1.keywords :=
  ⟨_, _, rfl, rfl, rfl, rfl, by decide⟩

/-- The setup call of the witness for the amended C1. -/
def c1WitnessKwargs : Kwargs :=
  { name := some (chars "pkg"), version := some (chars "1.0"),
    install_requires := some (.list [chars "requests>=2.0"]),
    extras_require := some [(chars "test", [chars "pytest"])] }

/-- The project the witness setup call loads to: one unconditional
dependency and one `test`-extra dependency. -/
def c1WitnessRoot : RootDependency :=
  loadedRoot (Distribution.ofKwargs c1WitnessKwargs) none
    [⟨chars "requests", [], chars ">=2.0", [], [chars "main"]⟩,
     ⟨chars "pytest", [], [], [], [chars "main", chars "test"]⟩]

/-- Witness for the amended C1 at a concrete project with one
unconditional and one extras-grouped dependency. -/
theorem c1_roundtrip_amended_witness :
    ∃ root2,
      loadKwargs (kwargsOfContent (SetupPyConverter.dumpsContent
          (c1WitnessRoot.dependencies.map depToReq) c1WitnessRoot)) none = .ok root2
      ∧ root2.raw_name = c1WitnessRoot.raw_name
      ∧ root2.version = c1WitnessRoot.version
      ∧ root2.license = c1WitnessRoot.license
      ∧ root2.classifiers = c1WitnessRoot.classifiers
      ∧ root2.platforms = c1WitnessRoot.platforms
      ∧ root2.authors.head? = c1WitnessRoot.authors.head?
      ∧ epGroups root2 = epGroups c1WitnessRoot
      ∧ uncondDeps root2 = uncondDeps c1WitnessRoot
      ∧ (∀ env, extrasGroup root2 env = extrasGroup c1WitnessRoot env) :=
  c1_roundtrip_amended c1WitnessKwargs none none c1WitnessRoot rfl
    (by decide) (by decide) (by decide) (by decide) (by decide) (by decide)
